import Mathlib

/-!
Verification of the mention-resolution and conversation-context subsystem of a
WhatsApp automation bot.  The JavaScript sources are shallowly embedded:

* `src/messageStore.js`            → `WA.MessageStore` (queue-based bounded cache)
* `src/src/core/messageStore.js`   → `WA.CoreMessageStore` (Map-only bounded cache)
* `src/src/services/mentionService.js` (upper half)
                                   → mention extraction / relay helpers
* `src/src/services/mentionService.js` (userDataService half)
                                   → conversation store operations
* `src/src/handlers/messageHandler.js` → the profile-name update fragments

JavaScript `Map`s are modelled as insertion-ordered association lists (`mapGet`,
`mapSet`, `mapDelete` below mirror `Map.get`, `Map.set`, `Map.delete` together
with the insertion-order iteration of `Map.keys()`), strings as `List Char`,
and `undefined`/`null` string fields as `Option String` where JavaScript
truthiness of a string (`undefined`, `null` and `""` are falsy) is `truthyStr`.
Wall-clock timestamps (`new Date().toISOString()`, `Date.now()`) are passed in
as an explicit `now` argument.
-/

namespace WA

/-- JavaScript strings are modelled as lists of characters ( `""` is `[]` ). -/
abbrev JStr := List Char

/-- JavaScript truthiness for a string field: `undefined`, `null` and the empty
string are falsy, every other string is truthy. -/
def truthy : Option JStr → Bool
  | none => false
  | some s => !s.isEmpty

/-- JavaScript `\s` restricted to the ASCII whitespace characters (the sources
only ever meet ASCII whitespace; the additional Unicode space code points of
`\s` are omitted from the model). -/
def isWsChar (c : Char) : Bool :=
  c = ' ' || c = '\t' || c = '\n' || c = '\r' || c = '\x0b' || c = '\x0c'

def isDigitChar (c : Char) : Bool := 0x30 ≤ c.toNat && c.toNat ≤ 0x39

def isUpperAlpha (c : Char) : Bool := 0x41 ≤ c.toNat && c.toNat ≤ 0x5A

def isLowerAlpha (c : Char) : Bool := 0x61 ≤ c.toNat && c.toNat ≤ 0x7A

def isAsciiLetter (c : Char) : Bool := isUpperAlpha c || isLowerAlpha c

/-- The class `[a-zA-Z0-9]` (used by the email guard and by `getUserDataPath`'s
`[^a-zA-Z0-9]` sanitizer). -/
def isAlnumChar (c : Char) : Bool := isAsciiLetter c || isDigitChar c

/-- JavaScript `\w` (for `\b` word boundaries): `[A-Za-z0-9_]`. -/
def isWordChar (c : Char) : Bool := isAlnumChar c || c = '_'

/-- `String.toLowerCase` on the ASCII range (the only range the comparisons in
the sources depend on; other code points are left unchanged). -/
def toLowerChar (c : Char) : Char :=
  if isUpperAlpha c then Char.ofNat (c.toNat + 32) else c

def toLowerList (l : JStr) : JStr := l.map toLowerChar

/-- `String.trim`: strip whitespace from both ends. -/
def trimWs (l : JStr) : JStr :=
  ((l.dropWhile isWsChar).reverse.dropWhile isWsChar).reverse

/-- The last character of a traversed prefix, or the inherited previous
character when the prefix is empty (used to track the character immediately
before each `@` position). -/
def lastOr (p : Option Char) : JStr → Option Char
  | [] => p
  | c :: rest => lastOr (some c) rest

/-- U+202A (LEFT-TO-RIGHT EMBEDDING), the invisible character the number
mention regex tolerates right after `@`. -/
def invLRE : Char := Char.ofNat 0x202A

/-- U+202C (POP DIRECTIONAL FORMATTING), tolerated right after the digits. -/
def invPDF : Char := Char.ofNat 0x202C

/-! ## Insertion-ordered association lists: the model of a JavaScript `Map` -/

/-- `Map.get k`: value of the first (unique) entry with key `k`. -/
def mapGet [DecidableEq α] : List (α × β) → α → Option β
  | [], _ => none
  | (k, v) :: rest, k' => if k' = k then some v else mapGet rest k'

/-- `Map.set k v`: replace the value in place if `k` is present (keeping its
insertion position), otherwise append a new entry at the end. -/
def mapSet [DecidableEq α] : List (α × β) → α → β → List (α × β)
  | [], k, v => [(k, v)]
  | (k0, v0) :: rest, k, v =>
      if k = k0 then (k0, v) :: rest else (k0, v0) :: mapSet rest k v

/-- `Map.delete k`: remove the (first) entry with key `k`. -/
def mapDelete [DecidableEq α] : List (α × β) → α → List (α × β)
  | [], _ => []
  | (k0, v0) :: rest, k => if k = k0 then rest else (k0, v0) :: mapDelete rest k

theorem mapSet_of_not_mem_keys [DecidableEq α] (l : List (α × β)) (k : α) (v : β)
    (h : k ∉ l.map Prod.fst) : mapSet l k v = l ++ [(k, v)] := by
  induction l with
  | nil => rfl
  | cons hd tl ih =>
      obtain ⟨k0, v0⟩ := hd
      simp only [List.map_cons, List.mem_cons] at h
      push_neg at h
      simp [mapSet, h.1, ih h.2]

theorem mapSet_length_of_mem_keys [DecidableEq α] (l : List (α × β)) (k : α) (v : β)
    (h : k ∈ l.map Prod.fst) : (mapSet l k v).length = l.length := by
  induction l with
  | nil => simp at h
  | cons hd tl ih =>
      obtain ⟨k0, v0⟩ := hd
      by_cases hk : k = k0
      · simp [mapSet, hk]
      · simp only [List.map_cons, List.mem_cons] at h
        rcases h with h | h
        · exact absurd h hk
        · simp [mapSet, hk, ih h]

theorem mapGet_mapSet_ne [DecidableEq α] (l : List (α × β)) (k k' : α) (v : β)
    (h : k' ≠ k) : mapGet (mapSet l k v) k' = mapGet l k' := by
  induction l with
  | nil => simp [mapSet, mapGet, h]
  | cons hd tl ih =>
      obtain ⟨k0, v0⟩ := hd
      by_cases hk : k = k0
      · subst hk
        simp [mapSet, mapGet, h]
      · simp only [mapSet, if_neg hk]
        by_cases hk' : k' = k0
        · simp [mapGet, hk']
        · simp [mapGet, hk', ih]

/-- The `key` object of a transport message; `id` may be absent (`undefined`). -/
structure MsgKey where
  id : Option String
  deriving DecidableEq, Repr

/-- A transport message as far as the message stores observe it: its `key`
(possibly absent) and an opaque remainder of the object, modelled as `body`. -/
structure StoreMsg where
  key : Option MsgKey
  body : String
  deriving DecidableEq, Repr

/-- JavaScript truthiness of `message.key && message.key.id` as tested by
`src/messageStore.js` (`!message || !message.key || !message.key.id`):
the identifier is usable only when `key` exists and `key.id` is truthy. -/
def msgId (m : StoreMsg) : Option String :=
  match m.key with
  | none => none
  | some k =>
      match k.id with
      | none => none
      | some s => if s = "" then none else some s

/-- `src/messageStore.js`: `messages` is a `Map` keyed by message id and
`messageQueue` tracks insertion order for FIFO eviction. -/
structure MessageStore where
  maxSize : Nat
  messages : List (String × StoreMsg)
  messageQueue : List String
  deriving DecidableEq, Repr

namespace MessageStore

/-- The constructor with an already-resolved `maxSize` (`options.maxSize || 100`). -/
def empty (maxSize : Nat) : MessageStore := ⟨maxSize, [], []⟩

/-- `MessageStore.add` from `src/messageStore.js`: throw if the message lacks a
(truthy) `key.id`; if the queue is at capacity, shift the oldest id off the
queue and delete it from the map; then insert the new message and enqueue it. -/
def add (s : MessageStore) (m : StoreMsg) : Except String (MessageStore × String) :=
  match msgId m with
  | none => Except.error "Invalid message: missing key.id"
  | some id =>
      let s1 :=
        if s.maxSize ≤ s.messageQueue.length then
          match s.messageQueue with
          | [] => s
          | oldest :: rest =>
              { s with messageQueue := rest, messages := mapDelete s.messages oldest }
        else s
      Except.ok
        ({ s1 with messages := mapSet s1.messages id m,
                   messageQueue := s1.messageQueue ++ [id] }, id)

/-- `MessageStore.get`. -/
def get (s : MessageStore) (id : String) : Option StoreMsg := mapGet s.messages id

/-- `MessageStore.size` (the `Map`'s size). -/
def size (s : MessageStore) : Nat := s.messages.length

/-- Convenience: the store after an `add`, unchanged when `add` throws
(a thrown exception leaves the JavaScript object untouched because the throw
happens before any mutation). -/
def addOk (s : MessageStore) (m : StoreMsg) : MessageStore :=
  match add s m with
  | Except.ok (s', _) => s'
  | Except.error _ => s

end MessageStore

/-! ## `src/src/core/messageStore.js`: the Map-only bounded message cache -/

/-- `src/src/core/messageStore.js` keeps only a `Map`; the key is
`message.key.id` used *without* any validity check, so an `undefined` id
(modelled `none`) is a legal map key. -/
structure CoreMessageStore where
  maxSize : Nat
  messages : List (Option String × StoreMsg)
  deriving DecidableEq, Repr

namespace CoreMessageStore

def empty (maxSize : Nat) : CoreMessageStore := ⟨maxSize, []⟩

/-- `add` from `src/src/core/messageStore.js`: reading `message.key.id` throws a
`TypeError` when `key` itself is absent; otherwise the message is stored under
`key.id` (even if that is `undefined`), and if the map then exceeds `maxSize`
the first key in insertion order is deleted. -/
def add (s : CoreMessageStore) (m : StoreMsg) :
    Except String (CoreMessageStore × Option String) :=
  match m.key with
  | none => Except.error "TypeError: cannot read id of undefined"
  | some k =>
      let messageId := k.id
      let ms := mapSet s.messages messageId m
      let ms2 :=
        if s.maxSize < ms.length then
          match ms.head? with
          | some (oldestKey, _) => mapDelete ms oldestKey
          | none => ms
        else ms
      Except.ok ({ s with messages := ms2 }, messageId)

/-- `get` returns `null` (here `none`) when absent. -/
def get (s : CoreMessageStore) (id : Option String) : Option StoreMsg :=
  mapGet s.messages id

def size (s : CoreMessageStore) : Nat := s.messages.length

def addOk (s : CoreMessageStore) (m : StoreMsg) : CoreMessageStore :=
  match add s m with
  | Except.ok (s', _) => s'
  | Except.error _ => s

end CoreMessageStore

/-! ### Concrete messages for the cache examples -/

def msgA : StoreMsg := ⟨some ⟨some "A"⟩, "message A"⟩
def msgB : StoreMsg := ⟨some ⟨some "B"⟩, "message B"⟩
def msgC : StoreMsg := ⟨some ⟨some "C"⟩, "message C"⟩

/-! ## Mention extraction (`src/src/services/mentionService.js`, lines 16–172)

The JavaScript functions scan with global regular expressions.  Because every
pattern starts with a literal `@` and its remaining pieces range over pairwise
disjoint character classes, each global scan is equivalent to the left-to-right
scanners below: at each `@` try the greedy match; on success continue after the
matched text, on failure continue with the next character. -/

/-- Consume an optional single occurrence of the character `c` (the regex
pieces `[‪]?` and `[‬]?`). -/
def dropOpt (c : Char) (l : JStr) : JStr :=
  match l with
  | x :: rest => if x = c then rest else l
  | [] => l

theorem dropOpt_length_le (c : Char) (l : JStr) : (dropOpt c l).length ≤ l.length := by
  cases l with
  | nil => simp [dropOpt]
  | cons x rest =>
      simp only [dropOpt]
      split <;> simp

theorem wa_dropWhile_length_le (p : α → Bool) (l : List α) :
    (l.dropWhile p).length ≤ l.length := by
  induction l with
  | nil => simp [List.dropWhile]
  | cons c rest ih =>
      simp only [List.dropWhile]
      split
      · exact Nat.le_succ_of_le ih
      · simp

/-- One attempt of `/@\s*[‪]?(\+?\d+)[‬]?/` at a position just after the `@`:
skip whitespace, at most one U+202A, an optional `+`, then require at least one
digit; the captured group is the optional `+` plus the digits.  Returns the
capture and the remaining text after the whole match. -/
def tryNumAt (l : JStr) : Option (JStr × JStr) :=
  let afterInv := dropOpt invLRE (l.dropWhile isWsChar)
  let afterPlus := if afterInv.head? = some '+' then afterInv.tail else afterInv
  if (afterPlus.takeWhile isDigitChar).isEmpty then none
  else
    some ((if afterInv.head? = some '+' then ['+'] else [])
            ++ afterPlus.takeWhile isDigitChar,
          dropOpt invPDF (afterPlus.dropWhile isDigitChar))

theorem tryNumAt_tail_le (l x : JStr) (hx : x.length ≤ l.length) :
    (dropOpt invPDF (x.dropWhile isDigitChar)).length ≤ l.length := by
  have h1 := dropOpt_length_le invPDF (x.dropWhile isDigitChar)
  have h2 := wa_dropWhile_length_le isDigitChar x
  omega

theorem tryNumAt_length_le (l n r : JStr) (h : tryNumAt l = some (n, r)) :
    r.length ≤ l.length := by
  have hbase : (dropOpt invLRE (l.dropWhile isWsChar)).length ≤ l.length := by
    have h4 := dropOpt_length_le invLRE (l.dropWhile isWsChar)
    have h5 := wa_dropWhile_length_le isWsChar l
    omega
  have htail : (dropOpt invLRE (l.dropWhile isWsChar)).tail.length ≤ l.length := by
    simp only [List.length_tail]
    omega
  unfold tryNumAt at h
  dsimp only at h
  split at h
  · split at h
    · exact absurd h (by simp)
    · rw [Option.some.injEq, Prod.mk.injEq] at h
      obtain ⟨h1, h2⟩ := h
      subst h2
      exact tryNumAt_tail_le l _ htail
  · split at h
    · exact absurd h (by simp)
    · rw [Option.some.injEq, Prod.mk.injEq] at h
      obtain ⟨h1, h2⟩ := h
      subst h2
      exact tryNumAt_tail_le l _ hbase

/-- The global scan of `/@\s*[‪]?(\+?\d+)[‬]?/g` over the whole text. -/
def numScan : JStr → List JStr
  | [] => []
  | c :: rest =>
      if c = '@' then
        match h : tryNumAt rest with
        | some (n, r) => n :: numScan r
        | none => numScan rest
      else numScan rest
termination_by l => l.length
decreasing_by
  · have hle := tryNumAt_length_le rest n r h
    simp only [List.length_cons]
    omega
  · simp only [List.length_cons]
    omega
  · simp only [List.length_cons]
    omega

/-- Split on `/\s+/` as used by the fallback path (empty fragments produced by
JavaScript `split` at the string edges can never start with `@`, so they are
irrelevant to the fallback and are dropped here). -/
def splitWs : JStr → List JStr
  | [] => []
  | c :: rest =>
      if isWsChar c then splitWs rest
      else (c :: rest.takeWhile (fun d => !isWsChar d))
             :: splitWs (rest.dropWhile (fun d => !isWsChar d))
termination_by l => l.length
decreasing_by
  · simp only [List.length_cons]
    omega
  · have := wa_dropWhile_length_le (fun d => !isWsChar d) rest
    simp only [List.length_cons]
    omega

/-- `/^\+?\d+$/`: an optional leading `+` followed by one or more digits. -/
def isValidNumberToken (l : JStr) : Bool :=
  match l with
  | '+' :: ds => !ds.isEmpty && ds.all isDigitChar
  | ds => !ds.isEmpty && ds.all isDigitChar

/-- The fallback path of `extractMentionedNumbers`: split on whitespace, keep
the tokens starting with `@` whose remaining characters, after stripping
everything but digits and `+`, form a valid number. -/
def fallbackNumbers (text : JStr) : List JStr :=
  (splitWs text).filterMap fun w =>
    match w with
    | '@' :: w1 =>
        let numberPart := w1.filter fun c => isDigitChar c || c = '+'
        if !numberPart.isEmpty && isValidNumberToken numberPart then some numberPart
        else none
    | _ => none

/-- `extractMentionedNumbers` (mentionService.js lines 16–55): the regex scan,
falling back to whitespace splitting when the regex finds nothing.  The
captured group `\+?\d+` contains no whitespace, so the source's `.trim()` on it
is the identity and is omitted. -/
def extractMentionedNumbers (text : JStr) : List JStr :=
  if text.isEmpty then []
  else
    let ms := numScan text
    if ms.isEmpty then fallbackNumbers text else ms

/-! ### Name extraction (mentionService.js lines 62–133) -/

/-- The character class `[\s.,!?;:'"]` ending the first word of a name. -/
def isNameDelim (c : Char) : Bool :=
  isWsChar c || c = '.' || c = ',' || c = '!' || c = '?' || c = ';' || c = ':'
    || c = Char.ofNat 39 || c = Char.ofNat 34

/-- One attempt of `/^\s+([A-Z][a-z]+)/` on a remaining text: at least one
whitespace character, then an uppercase letter followed by at least one
lowercase letter.  Returns the whitespace, the matched word and the rest. -/
def tryAbsorbWord (l : JStr) : Option (JStr × JStr × JStr) :=
  let ws := l.takeWhile isWsChar
  if ws.isEmpty then none
  else
    match l.dropWhile isWsChar with
    | u :: rest =>
        if isUpperAlpha u then
          let lowers := rest.takeWhile isLowerAlpha
          if lowers.isEmpty then none
          else some (ws, u :: lowers, rest.dropWhile isLowerAlpha)
        else none
    | [] => none

/-- Processing of one `@` position (mentionService.js lines 80–117): skip if
the previous character is alphanumeric (email guard); take the run of
non-delimiter characters as the first word; reject it if it contains a digit
or is shorter than 2; then match `/^\s+([A-Z][a-z]+)(\s+[A-Z][a-z]+)?/` on the
remaining text and absorb up to two further capitalized words.  As in the
source, the first absorbed word is joined with a single literal space while the
second keeps its original whitespace (`match[2]` includes it). -/
def tryNameAt (prevC : Option Char) (l : JStr) : Option JStr :=
  let prevAlnum := match prevC with
    | some p => isAlnumChar p
    | none => false
  if prevAlnum then none
  else
    let firstWord := l.takeWhile fun c => !isNameDelim c
    if firstWord.any isDigitChar || firstWord.length < 2 then none
    else
      let remaining := l.dropWhile fun c => !isNameDelim c
      match tryAbsorbWord remaining with
      | some (_, w1, rest1) =>
          match tryAbsorbWord rest1 with
          | some (ws2, w2, _) => some (firstWord ++ ' ' :: (w1 ++ ws2 ++ w2))
          | none => some (firstWord ++ ' ' :: w1)
      | none => some firstWord

/-- The loop over all `@` positions of the text.  `prevC` carries the character
immediately before the current position (`none` at the start of the text);
each `@` is processed independently and scanning continues with the next
character, exactly like the source's loop over `atSymbolPositions`. -/
def nameScan (prevC : Option Char) : JStr → List JStr
  | [] => []
  | c :: rest =>
      if c = '@' then
        match tryNameAt prevC rest with
        | some n => n :: nameScan (some c) rest
        | none => nameScan (some c) rest
      else nameScan (some c) rest

/-- One attempt of `/@([a-zA-Z]+_[a-zA-Z]+)/` just after an `@`: letters, one
underscore, letters.  Returns the compound name and the rest of the text. -/
def tryUnderscoreAt (l : JStr) : Option (JStr × JStr) :=
  let letters1 := l.takeWhile isAsciiLetter
  if letters1.isEmpty then none
  else
    match l.dropWhile isAsciiLetter with
    | '_' :: rest2 =>
        let letters2 := rest2.takeWhile isAsciiLetter
        if letters2.isEmpty then none
        else some (letters1 ++ '_' :: letters2, rest2.dropWhile isAsciiLetter)
    | _ => none

theorem tryUnderscoreAt_length_le (l n r : JStr) (h : tryUnderscoreAt l = some (n, r)) :
    r.length ≤ l.length := by
  unfold tryUnderscoreAt at h
  dsimp only at h
  split at h
  · exact absurd h (by simp)
  · split at h
    · rename_i rest2 heq
      split at h
      · exact absurd h (by simp)
      · rw [Option.some.injEq, Prod.mk.injEq] at h
        obtain ⟨h1, h2⟩ := h
        subst h2
        have ha := wa_dropWhile_length_le isAsciiLetter rest2
        have hb := wa_dropWhile_length_le isAsciiLetter l
        have hc : (l.dropWhile isAsciiLetter).length = rest2.length + 1 := by
          rw [heq]
          rfl
        omega
    · exact absurd h (by simp)

/-- The global scan of `/@([a-zA-Z]+_[a-zA-Z]+)/g`. -/
def underscoreScan : JStr → List JStr
  | [] => []
  | c :: rest =>
      if c = '@' then
        match h : tryUnderscoreAt rest with
        | some (n, r) => n :: underscoreScan r
        | none => underscoreScan rest
      else underscoreScan rest
termination_by l => l.length
decreasing_by
  · have hle := tryUnderscoreAt_length_le rest n r h
    simp only [List.length_cons]
    omega
  · simp only [List.length_cons]
    omega
  · simp only [List.length_cons]
    omega

/-- `extractMentionedNames` (mentionService.js lines 62–133): all `@`-position
names, then the underscore-compound names de-duplicated against the list built
so far. -/
def extractMentionedNames (text : JStr) : List JStr :=
  if text.isEmpty then []
  else
    (underscoreScan text).foldl
      (fun acc n => if n ∈ acc then acc else acc ++ [n])
      (nameScan none text)

/-! ### Stripping mentions (`extractActualMessage`, mentionService.js 142–172) -/

/-- Whether `\b` holds between the last character of the pattern `@tok` and the
following character (`none` at the end of the text): exactly one of the two
sides is a word character. -/
def boundaryAfter (tok : JStr) (next : Option Char) : Bool :=
  let lastC := tok.getLastD '@'
  let nextWord := match next with
    | some c => isWordChar c
    | none => false
  isWordChar lastC != nextWord

/-- `cleanedMessage.replace(new RegExp(`@tok\b`, g), empty)`: the escaping of
the regex special characters makes `tok` match literally, so each occurrence of
`@` followed by `tok` with a word boundary after it is deleted, scanning left
to right and continuing after each match. -/
def removeTokWB (tok : JStr) : JStr → JStr
  | [] => []
  | c :: rest =>
      if c = '@' && rest.take tok.length = tok
          && boundaryAfter tok (rest.drop tok.length).head? then
        removeTokWB tok (rest.drop tok.length)
      else c :: removeTokWB tok rest
termination_by l => l.length
decreasing_by
  · have := rest.length_drop tok.length
    simp only [List.length_cons]
    omega
  · simp only [List.length_cons]
    omega

/-- `cleanedMessage.replace(/@\S+\s?/g, empty)`: delete every `@` followed by a
non-empty run of non-whitespace characters and at most one following
whitespace character.  After dropping the `\S+` run the next character, if any,
is whitespace, so the optional `\s?` is exactly `drop 1`. -/
def removeResidual : JStr → JStr
  | [] => []
  | c :: rest =>
      if c = '@' && !(rest.takeWhile fun d => !isWsChar d).isEmpty then
        removeResidual ((rest.dropWhile fun d => !isWsChar d).drop 1)
      else c :: removeResidual rest
termination_by l => l.length
decreasing_by
  · have h1 := wa_dropWhile_length_le (fun d => !isWsChar d) rest
    have h2 := (rest.dropWhile fun d => !isWsChar d).length_drop 1
    simp only [List.length_cons]
    omega
  · simp only [List.length_cons]
    omega

/-- `cleanedMessage.replace(/\s+/g, single-space)`. -/
def collapseWs : JStr → JStr
  | [] => []
  | c :: rest =>
      if isWsChar c then ' ' :: collapseWs (rest.dropWhile isWsChar)
      else c :: collapseWs rest
termination_by l => l.length
decreasing_by
  · have := wa_dropWhile_length_le isWsChar rest
    simp only [List.length_cons]
    omega
  · simp only [List.length_cons]
    omega

/-- `extractActualMessage` (mentionService.js lines 142–172): remove each
`@name` (word-boundary matched), then each `@number`, then any residual
`@token`, collapse whitespace runs to single spaces and trim. -/
def extractActualMessage (text : JStr) (names numbers : List JStr) : JStr :=
  if text.isEmpty then []
  else
    let afterNames := names.foldl (fun acc n => removeTokWB n acc) text
    let afterNumbers := numbers.foldl (fun acc n => removeTokWB n acc) afterNames
    trimWs (collapseWs (removeResidual afterNumbers))

/-! ### Relay-intent detection and message framing
(`checkIfTellSomeoneMessage`, lines 716–747, and `handleMentions`, 452–515) -/

/-- Whether `l` starts with `pat`. -/
def startsWithTok (pat l : JStr) : Bool := l.take pat.length = pat

/-- JavaScript `String.includes`: `containsTok pat l` is true iff `pat` occurs
contiguously inside `l` (every string contains the empty string). -/
def containsTok (pat : JStr) : JStr → Bool
  | [] => pat.isEmpty
  | c :: rest => startsWithTok pat (c :: rest) || containsTok pat rest

def englishTellPatterns : List JStr :=
  ["tell", "say to", "inform", "let know", "message", "ask", "tell him",
   "tell her", "please tell", "can you tell", "would you tell",
   "could you tell"].map String.toList

def bengaliTellPatterns : List JStr :=
  ["বলো", "বল", "জানাও", "বলতে", "বলবে", "জানাবে", "জিজ্ঞাসা", "জিজ্ঞেস",
   "bolo", "bol", "janao", "bolte", "bolbe", "janabe", "jiggasa",
   "jigges"].map String.toList

/-- `checkIfTellSomeoneMessage(originalMessage, cleanedMessage)`: false when
either argument is falsy, otherwise true iff the lowercased original contains
one of the fixed English or Bengali markers. -/
def checkIfTellSomeoneMessage (originalMessage cleanedMessage : JStr) : Bool :=
  if originalMessage.isEmpty || cleanedMessage.isEmpty then false
  else
    let lowerOriginal := toLowerList originalMessage
    englishTellPatterns.any (fun p => containsTok p lowerOriginal)
      || bengaliTellPatterns.any (fun p => containsTok p lowerOriginal)

/-- The final personalized relay message assembled by `handleMentions`
(lines 509–515 and 607–614): the relay-intent flag selects between the
"asked to send you this message" and the plain "told you" Bengali framings. -/
def composePersonalizedMessage (bengaliGroupName bengaliSenderName
    enhancedMessage : JStr) (isTellSomeoneMessage : Bool) : JStr :=
  if isTellSomeoneMessage then
    bengaliGroupName ++ " থেকে ".toList ++ bengaliSenderName
      ++ " আপনাকে এই বার্তা পাঠাতে বলেছে:\n\n\"".toList
      ++ enhancedMessage ++ "\"".toList
  else
    bengaliGroupName ++ " থেকে ".toList ++ bengaliSenderName
      ++ " আপনাকে বলেছে:\n\n\"".toList
      ++ enhancedMessage ++ "\"".toList

/-! ## Conversation store (the `userDataService` module required by
`mentionService.js`; its source is appended to
`src/src/services/mentionService.js`, lines 760–1313)

Records are persisted one file per entity; the file system is modelled as an
association list from file paths to parsed records (`FileSystem`).  A parse
failure is treated as a load miss in the source and is not reachable in the
model, where files always hold well-formed records.  The global preference
`maxConversationLength` (`getPreferences().userData?.maxConversationLength ||
100`) is passed in as an argument. -/

structure UserProfile where
  name : Option JStr
  lastSeen : Option JStr
  updatedAt : Option JStr
  description : Option JStr
  createdAt : Option JStr
  avatar : Option JStr
  memberCount : Option Nat
  deriving DecidableEq, Repr

/-- `preferences`; a `null`/missing `language` is modelled as `[]`. -/
structure Preferences where
  language : JStr
  aiEnabled : Bool
  notifyOnMention : Bool
  deriving DecidableEq, Repr

structure ParticipantData where
  name : Option JStr
  isAdmin : Bool
  isSuperAdmin : Bool
  lastSeen : Option JStr
  lastUpdated : Option JStr
  deriving DecidableEq, Repr

structure TopParticipant where
  id : JStr
  name : Option JStr
  messageCount : Nat
  lastActive : JStr
  deriving DecidableEq, Repr

/-- An element of the stored `conversation` history. -/
structure StoredMessage where
  id : JStr
  timestamp : JStr
  text : JStr
  fromMe : Bool
  sender : Option (JStr × JStr)
  replyTo : Option JStr
  deriving DecidableEq, Repr

structure Stats where
  messageCount : Nat
  lastActivity : JStr
  topParticipants : List TopParticipant
  deriving DecidableEq, Repr

structure UserData where
  userId : JStr
  isGroup : Bool
  profile : UserProfile
  conversation : List StoredMessage
  participants : List (JStr × ParticipantData)
  preferences : Preferences
  stats : Stats
  deriving DecidableEq, Repr

/-- `userId.replace(/[^a-zA-Z0-9]/g, underscore)`. -/
def sanitizeChar (c : Char) : Char := if isAlnumChar c then c else '_'

/-- `getUserDataPath` (lines 795–800): the file path derived from the entity
id, partitioned into the group and inbox directories. -/
def getUserDataPath (userId : JStr) (isGroup : Bool) : JStr :=
  (if isGroup then "data/groups/".toList else "data/inbox/".toList)
    ++ userId.map sanitizeChar ++ ".json".toList

/-- The persisted files: path to parsed record. -/
abbrev FileSystem := List (JStr × UserData)

/-- The default skeleton returned by `loadUserData` on a miss. -/
def defaultUserData (userId : JStr) (isGroup : Bool) (now : JStr) : UserData :=
  { userId := userId
    isGroup := isGroup
    profile :=
      { name := none, lastSeen := none, updatedAt := some now, description := none
        createdAt := some now, avatar := none
        memberCount := if isGroup then some 0 else none }
    conversation := []
    participants := []
    preferences := { language := "auto".toList, aiEnabled := true, notifyOnMention := true }
    stats := { messageCount := 0, lastActivity := now, topParticipants := [] } }

/-- `loadUserData` (lines 808–846). -/
def loadUserData (fs : FileSystem) (userId : JStr) (isGroup : Bool) (now : JStr) :
    UserData :=
  match mapGet fs (getUserDataPath userId isGroup) with
  | some d => d
  | none => defaultUserData userId isGroup now

/-- `saveUserData` (lines 854–870): refresh `profile.updatedAt` and overwrite
the whole file. -/
def saveUserData (fs : FileSystem) (userId : JStr) (isGroup : Bool)
    (userData : UserData) (now : JStr) : FileSystem :=
  mapSet fs (getUserDataPath userId isGroup)
    { userData with profile := { userData.profile with updatedAt := some now } }

/-- A shallow patch of `profile` (`{...profile, ...profileInfo}`); `none`
means the field is absent from the patch object.  The call sites in the
sources never pass an explicitly-null field. -/
structure ProfilePatch where
  name : Option JStr
  description : Option JStr
  memberCount : Option Nat
  lastSeen : Option JStr
  deriving DecidableEq, Repr

def emptyProfilePatch : ProfilePatch := ⟨none, none, none, none⟩

structure PrefsPatch where
  language : Option JStr
  aiEnabled : Option Bool
  notifyOnMention : Option Bool
  deriving DecidableEq, Repr

structure StatsPatch where
  messageCount : Option Nat
  lastActivity : Option JStr
  topParticipants : Option (List TopParticipant)
  deriving DecidableEq, Repr

/-- The `additionalData` argument of `updateUserProfile`. -/
structure AdditionalData where
  preferences : Option PrefsPatch
  participants : Option (List (JStr × ParticipantData))
  stats : Option StatsPatch
  deriving DecidableEq, Repr

def mergeProfile (p : UserProfile) (patch : ProfilePatch) (now : JStr) : UserProfile :=
  { p with
    name := match patch.name with | some v => some v | none => p.name
    description := match patch.description with | some v => some v | none => p.description
    memberCount := match patch.memberCount with | some v => some v | none => p.memberCount
    lastSeen := match patch.lastSeen with | some v => some v | none => p.lastSeen
    updatedAt := some now }

def mergePrefs (p : Preferences) (patch : PrefsPatch) : Preferences :=
  { language := match patch.language with | some v => v | none => p.language
    aiEnabled := patch.aiEnabled.getD p.aiEnabled
    notifyOnMention := patch.notifyOnMention.getD p.notifyOnMention }

def mergeStats (s : Stats) (patch : StatsPatch) : Stats :=
  { messageCount := patch.messageCount.getD s.messageCount
    lastActivity := patch.lastActivity.getD s.lastActivity
    topParticipants := patch.topParticipants.getD s.topParticipants }

def emptyParticipant : ParticipantData := ⟨none, false, false, none, none⟩

/-- `info.name || existingParticipant.name || null`. -/
def jsOrNull (a b : Option JStr) : Option JStr :=
  if truthy a then a else if truthy b then b else none

/-- The participant merge loop of `updateUserProfile` (lines 1081–1107):
incoming entries overwrite field-by-field, but an existing name survives when
the incoming entry has none.  The incoming entries of the sources always carry
all participant fields, so `{...existing, ...info}` is `info`. -/
def mergeParticipants (existing : List (JStr × ParticipantData))
    (incoming : List (JStr × ParticipantData)) (now : JStr) :
    List (JStr × ParticipantData) :=
  incoming.foldl
    (fun acc e =>
      let existingP := (mapGet acc e.1).getD emptyParticipant
      mapSet acc e.1
        { e.2 with
          name := jsOrNull e.2.name existingP.name
          lastUpdated := some now })
    existing

/-- `updateUserProfile` (lines 1062–1119). -/
def updateUserProfile (fs : FileSystem) (userId : JStr) (isGroup : Bool)
    (profileInfo : ProfilePatch) (additionalData : AdditionalData) (now : JStr) :
    UserData × FileSystem :=
  let d0 := loadUserData fs userId isGroup now
  let d1 := { d0 with profile := mergeProfile d0.profile profileInfo now }
  let d2 := match additionalData.preferences with
    | some prefs => { d1 with preferences := mergePrefs d1.preferences prefs }
    | none => d1
  let d3 := match additionalData.participants with
    | some parts =>
        { d2 with participants := mergeParticipants d2.participants parts now }
    | none => d2
  let d4 := match additionalData.stats with
    | some st => { d3 with stats := mergeStats d3.stats st }
    | none => d3
  (d4, saveUserData fs userId isGroup d4 now)

def isBengaliChar (c : Char) : Bool := 0x980 ≤ c.toNat && c.toNat ≤ 0x9FF

def isArabicChar (c : Char) : Bool := 0x600 ≤ c.toNat && c.toNat ≤ 0x6FF

def isDevanagariChar (c : Char) : Bool := 0x900 ≤ c.toNat && c.toNat ≤ 0x97F

/-- The character-range classification of `detectAndUpdateLanguage`: Bengali,
Arabic, Devanagari, then Latin, in this order; `auto` when the text is empty
or whitespace-only, or when no range matches. -/
def detectLanguageCode (text : JStr) : JStr :=
  if (trimWs text).isEmpty then "auto".toList
  else if text.any isBengaliChar then "bn".toList
  else if text.any isArabicChar then "ar".toList
  else if text.any isDevanagariChar then "hi".toList
  else if text.any isAsciiLetter then "en".toList
  else "auto".toList

/-- `detectAndUpdateLanguage`: classify, persist the detected code via
`updateUserProfile` when one was detected and the stored preference is still
falsy or `auto`, and always return the detected code.  (The source's interior
repair of a missing `preferences` object only affects a local copy of states
unrepresentable here.) -/
def detectAndUpdateLanguage (fs : FileSystem) (userId : JStr) (isGroup : Bool)
    (messageText : JStr) (now : JStr) : JStr × FileSystem :=
  let detected := detectLanguageCode messageText
  if detected ≠ "auto".toList then
    let userData := loadUserData fs userId isGroup now
    if userData.preferences.language.isEmpty
        || userData.preferences.language = "auto".toList then
      (detected,
       (updateUserProfile fs userId isGroup emptyProfilePatch
          { preferences := some ⟨some detected, none, none⟩
            participants := none, stats := none } now).2)
    else (detected, fs)
  else (detected, fs)

/-! ### `getAllUsers` / `findPhoneNumberByName` (lines 1182–1300) -/

inductive UserKind where
  | inboxUser
  | groupUser
  deriving DecidableEq, Repr

/-- An element of the `getAllUsers` result: the parsed record together with
its collection tag (`inbox` or `group`). -/
structure TaggedUser where
  kind : UserKind
  data : UserData
  deriving DecidableEq, Repr

/-- The equality-or-mutual-substring test of `findPhoneNumberByName`. -/
def matchNames (userName norm : JStr) : Bool :=
  userName = norm || containsTok norm userName || containsTok userName norm

/-- `userId.split(at-sign)[0]`. -/
def addrOf (userId : JStr) : JStr := userId.takeWhile (fun c => c ≠ '@')

/-- The first loop of `findPhoneNumberByName`: direct-message records only. -/
def findDmLoop : List TaggedUser → JStr → Option JStr
  | [], _ => none
  | u :: rest, norm =>
      if u.kind = UserKind.inboxUser && truthy u.data.profile.name
          && matchNames (trimWs (toLowerList (u.data.profile.name.getD []))) norm then
        some (addrOf u.data.userId)
      else findDmLoop rest norm

/-- The inner participant loop of the second loop of `findPhoneNumberByName`. -/
def findParticipantLoop : List (JStr × ParticipantData) → JStr → Option JStr
  | [], _ => none
  | e :: rest, norm =>
      if truthy e.2.name
          && matchNames (trimWs (toLowerList (e.2.name.getD []))) norm then
        some (addrOf e.1)
      else findParticipantLoop rest norm

/-- The second loop of `findPhoneNumberByName`: group participants. -/
def findGroupLoop : List TaggedUser → JStr → Option JStr
  | [], _ => none
  | u :: rest, norm =>
      if u.kind = UserKind.groupUser then
        match findParticipantLoop u.data.participants norm with
        | some r => some r
        | none => findGroupLoop rest norm
      else findGroupLoop rest norm

/-- `findPhoneNumberByName` (lines 1239–1300), parameterized by the
`getAllUsers` result. -/
def findPhoneNumberByName (users : List TaggedUser) (name : JStr) : Option JStr :=
  if name.isEmpty then none
  else
    let norm := trimWs (toLowerList name)
    match findDmLoop users norm with
    | some r => some r
    | none => findGroupLoop users norm

/-- The matching condition on a direct-message record, written from the
spec's words (§4.2) for the refinement comparison. -/
def dmRecordMatches (norm : JStr) (u : TaggedUser) : Bool :=
  u.kind = UserKind.inboxUser && truthy u.data.profile.name
    && matchNames (trimWs (toLowerList (u.data.profile.name.getD []))) norm

/-- The matching condition on a group-roster entry, written from the spec's
words (§4.2) for the refinement comparison. -/
def participantEntryMatches (norm : JStr) (e : JStr × ParticipantData) : Bool :=
  truthy e.2.name && matchNames (trimWs (toLowerList (e.2.name.getD []))) norm

/-- IdentityResolver as the spec words it (§4.2): first match over all
direct-message records, then first match over the concatenated group rosters,
then not-found.  This is the comparison definition for the refinement claim
C2. -/
def resolveNameToAddressSpec (users : List TaggedUser) (name : JStr) : Option JStr :=
  if name.isEmpty then none
  else
    let norm := trimWs (toLowerList name)
    match users.find? (dmRecordMatches norm) with
    | some u => some (addrOf u.data.userId)
    | none =>
        match ((users.filter fun u => u.kind = UserKind.groupUser).flatMap
                 fun u => u.data.participants).find? (participantEntryMatches norm) with
        | some e => some (addrOf e.1)
        | none => none

/-! ### Profile-name update fragments of `messageHandler.js` -/

/-- A direct-message record whose contact is displayed as `Karim`. -/
def dmKarim : TaggedUser :=
  { kind := UserKind.inboxUser
    data := { defaultUserData "8801@s.whatsapp.net".toList false "t0".toList with
      profile := { name := some "Karim".toList, lastSeen := none
                   updatedAt := none, description := none, createdAt := none
                   avatar := none, memberCount := none } } }

/-- A group record with a participant displayed as `Karim Uddin`. -/
def grpKarim : TaggedUser :=
  { kind := UserKind.groupUser
    data := { defaultUserData "g1@g.us".toList true "t0".toList with
      participants := [("9902@s.whatsapp.net".toList,
        { emptyParticipant with name := some "Karim Uddin".toList })] } }

/-- The store after a first `detectAndUpdateLanguage` call with Bengali text
on a fresh record. -/
def c6ExampleFs : FileSystem :=
  (detectAndUpdateLanguage [] "user1".toList false "আমি".toList "t1".toList).2

/-! # Claim theorems -/

/-! ## Claim C1 -/

/-- Counterexample to C1 as stated: the sanitization of `getUserDataPath` maps
the two distinct addresses `123-456` and `123.456` (same `isGroup` flag) to the
same storage path, so it is not injective on external addresses. -/
theorem c1_sanitization_collision :
    getUserDataPath "123-456".toList false = getUserDataPath "123.456".toList false
    ∧ "123-456".toList ≠ "123.456".toList := by
  decide

/-- Claim C1 (amended): the storage key is derived deterministically, but two
distinct addresses collide whenever they differ only in non-alphanumeric
characters; the derivation is injective only on addresses consisting of
alphanumeric characters, where distinct addresses always give distinct keys. -/
theorem wa_map_self (f : α → α) (l : List α) (h : ∀ c ∈ l, f c = c) :
    l.map f = l := by
  induction l with
  | nil => rfl
  | cons c rest ih =>
      simp only [List.map_cons, h c (by simp)]
      rw [ih fun d hd => h d (by simp [hd])]

theorem c1_path_injective_on_alnum (id1 id2 : JStr) (g : Bool)
    (h1 : ∀ c ∈ id1, isAlnumChar c = true) (h2 : ∀ c ∈ id2, isAlnumChar c = true)
    (hne : id1 ≠ id2) : getUserDataPath id1 g ≠ getUserDataPath id2 g := by
  have e1 : id1.map sanitizeChar = id1 :=
    wa_map_self _ _ fun c hc => by simp [sanitizeChar, h1 c hc]
  have e2 : id2.map sanitizeChar = id2 :=
    wa_map_self _ _ fun c hc => by simp [sanitizeChar, h2 c hc]
  intro h
  apply hne
  unfold getUserDataPath at h
  rw [e1, e2, List.append_assoc, List.append_assoc] at h
  exact List.append_cancel_right (List.append_cancel_left h)

/-- Witness for the amended C1 on two concrete alphanumeric addresses. -/
theorem c1_path_injective_on_alnum_witness :
    getUserDataPath "abc123".toList false ≠ getUserDataPath "abd123".toList false :=
  c1_path_injective_on_alnum "abc123".toList "abd123".toList false
    (by decide) (by decide) (by decide)

/-! ## Claim C2 -/

theorem findDmLoop_eq (users : List TaggedUser) (norm : JStr) :
    findDmLoop users norm
      = (users.find? (dmRecordMatches norm)).map fun u => addrOf u.data.userId := by
  induction users with
  | nil => rfl
  | cons u rest ih =>
      by_cases hc : dmRecordMatches norm u = true
      · have hc' : (u.kind = UserKind.inboxUser && truthy u.data.profile.name
            && matchNames (trimWs (toLowerList (u.data.profile.name.getD []))) norm)
            = true := hc
        simp only [findDmLoop, hc', if_true, List.find?_cons_of_pos _ hc,
          Option.map_some']
      · have hc0 : dmRecordMatches norm u = false := by
          cases hcb : dmRecordMatches norm u
          · rfl
          · exact absurd hcb hc
        have hc' : (u.kind = UserKind.inboxUser && truthy u.data.profile.name
            && matchNames (trimWs (toLowerList (u.data.profile.name.getD []))) norm)
            = false := hc0
        have hfind : List.find? (dmRecordMatches norm) (u :: rest)
            = List.find? (dmRecordMatches norm) rest :=
          List.find?_cons_of_neg _ (by simp [hc0])
        simp [findDmLoop, hc', hfind, ih]

theorem findParticipantLoop_eq (ps : List (JStr × ParticipantData)) (norm : JStr) :
    findParticipantLoop ps norm
      = (ps.find? (participantEntryMatches norm)).map fun e => addrOf e.1 := by
  induction ps with
  | nil => rfl
  | cons e rest ih =>
      by_cases hc : participantEntryMatches norm e = true
      · have hc' : (truthy e.2.name
            && matchNames (trimWs (toLowerList (e.2.name.getD []))) norm) = true := hc
        simp only [findParticipantLoop, hc', if_true, List.find?_cons_of_pos _ hc,
          Option.map_some']
      · have hc0 : participantEntryMatches norm e = false := by
          cases hcb : participantEntryMatches norm e
          · rfl
          · exact absurd hcb hc
        have hc' : (truthy e.2.name
            && matchNames (trimWs (toLowerList (e.2.name.getD []))) norm) = false := hc0
        have hfind : List.find? (participantEntryMatches norm) (e :: rest)
            = List.find? (participantEntryMatches norm) rest :=
          List.find?_cons_of_neg _ (by simp [hc0])
        simp [findParticipantLoop, hc', hfind, ih]

theorem wa_find?_append (p : α → Bool) (l₁ l₂ : List α) :
    (l₁ ++ l₂).find? p
      = match l₁.find? p with
        | some x => some x
        | none => l₂.find? p := by
  induction l₁ with
  | nil => simp
  | cons a rest ih =>
      by_cases ha : p a = true
      · simp [List.find?_cons_of_pos _ ha, ha]
      · have ha0 : p a = false := by
          cases hab : p a
          · rfl
          · exact absurd hab ha
        have hf1 : List.find? p (a :: (rest ++ l₂)) = List.find? p (rest ++ l₂) :=
          List.find?_cons_of_neg _ (by simp [ha0])
        have hf2 : List.find? p (a :: rest) = List.find? p rest :=
          List.find?_cons_of_neg _ (by simp [ha0])
        rw [List.cons_append, hf1, hf2, ih]

theorem findGroupLoop_eq (users : List TaggedUser) (norm : JStr) :
    findGroupLoop users norm
      = (((users.filter fun u => u.kind = UserKind.groupUser).flatMap
            fun u => u.data.participants).find? (participantEntryMatches norm)).map
          fun e => addrOf e.1 := by
  induction users with
  | nil => rfl
  | cons u rest ih =>
      by_cases hg : u.kind = UserKind.groupUser
      · have hg' : (decide (u.kind = UserKind.groupUser)) = true := by simp [hg]
        simp only [findGroupLoop, hg, if_true, List.filter_cons, hg', List.flatMap_cons,
          wa_find?_append]
        rw [findParticipantLoop_eq]
        cases hfind : u.data.participants.find? (participantEntryMatches norm) with
        | none => simp [hfind, ih]
        | some e => simp [hfind]
      · have hg' : (decide (u.kind = UserKind.groupUser)) = false := by simp [hg]
        have hfilter : (u :: rest).filter (fun v => decide (v.kind = UserKind.groupUser))
            = rest.filter (fun v => decide (v.kind = UserKind.groupUser)) := by
          simp [List.filter_cons, hg']
        simp only [findGroupLoop]
        rw [if_neg hg, hfilter, ih]

/-- Claim C2: `findPhoneNumberByName` refines the spec's IdentityResolver
algorithm (normalize to lowercase/trimmed; first match over direct-message
records by equality or mutual substring of the lowercased display name; only
then first match over the concatenated group rosters; otherwise not-found),
and on a store holding a direct-message record displayed `Karim` and a group
participant displayed `Karim Uddin` — even with the group record enumerated
first — resolving `karim` returns the direct-message address. -/
theorem c2_find_phone_number_by_name :
    (∀ (users : List TaggedUser) (name : JStr),
        findPhoneNumberByName users name = resolveNameToAddressSpec users name)
    ∧ findPhoneNumberByName [grpKarim, dmKarim] "karim".toList = some "8801".toList
    ∧ findPhoneNumberByName [grpKarim] "karim".toList = some "9902".toList := by
  refine ⟨?_, by decide, by decide⟩
  intro users name
  unfold findPhoneNumberByName resolveNameToAddressSpec
  by_cases hn : name.isEmpty = true
  · simp [hn]
  · have hn' : name.isEmpty = false := by
      cases hne : name.isEmpty
      · rfl
      · exact absurd hne hn
    simp only [hn', Bool.false_eq_true, if_false]
    rw [findDmLoop_eq, findGroupLoop_eq]
    cases hdm : users.find? (dmRecordMatches (trimWs (toLowerList name))) with
    | some u => simp
    | none =>
        simp only [Option.map_none']
        cases hgr : (((users.filter fun u => u.kind = UserKind.groupUser).flatMap
            fun u => u.data.participants).find?
              (participantEntryMatches (trimWs (toLowerList name)))) with
        | some e => simp
        | none => simp

/-! ## Claim C5 -/

theorem wa_mem_dropWhile (p : α → Bool) (l : List α) (c : α) (hc : c ∈ l)
    (hpc : p c = false) : c ∈ l.dropWhile p := by
  induction l with
  | nil => simp at hc
  | cons a rest ih =>
      rcases List.mem_cons.mp hc with h | h
      · subst h
        simp [List.dropWhile, hpc]
      · cases ha : p a
        · simp [List.dropWhile, ha, List.mem_cons, h]
        · simp [List.dropWhile, ha, ih h]

theorem trimWs_not_empty_of_mem (l : JStr) (c : Char) (hc : c ∈ l)
    (hw : isWsChar c = false) : (trimWs l).isEmpty = false := by
  unfold trimWs
  have h1 : c ∈ l.dropWhile isWsChar := wa_mem_dropWhile _ _ _ hc hw
  have h2 : c ∈ (l.dropWhile isWsChar).reverse := List.mem_reverse.mpr h1
  have h3 : c ∈ (l.dropWhile isWsChar).reverse.dropWhile isWsChar :=
    wa_mem_dropWhile _ _ _ h2 hw
  have h4 : c ∈ ((l.dropWhile isWsChar).reverse.dropWhile isWsChar).reverse :=
    List.mem_reverse.mpr h3
  cases hlist : ((l.dropWhile isWsChar).reverse.dropWhile isWsChar).reverse with
  | nil => rw [hlist] at h4; simp at h4
  | cons a rest => rfl

theorem wsChars_not_in_classes (c : Char) (h : isWsChar c = true) :
    isBengaliChar c = false ∧ isArabicChar c = false
      ∧ isDevanagariChar c = false ∧ isAsciiLetter c = false := by
  simp only [isWsChar, Bool.or_eq_true, decide_eq_true_eq] at h
  rcases h with ((((h | h) | h) | h) | h) | h <;> subst h <;> exact (by decide)

theorem not_ws_of_bengali (c : Char) (h : isBengaliChar c = true) :
    isWsChar c = false := by
  cases hb : isWsChar c with
  | false => rfl
  | true => exact absurd h (by simp [(wsChars_not_in_classes c hb).1])

theorem not_ws_of_arabic (c : Char) (h : isArabicChar c = true) :
    isWsChar c = false := by
  cases hb : isWsChar c with
  | false => rfl
  | true => exact absurd h (by simp [(wsChars_not_in_classes c hb).2.1])

theorem not_ws_of_devanagari (c : Char) (h : isDevanagariChar c = true) :
    isWsChar c = false := by
  cases hb : isWsChar c with
  | false => rfl
  | true => exact absurd h (by simp [(wsChars_not_in_classes c hb).2.2.1])

theorem not_ws_of_latin (c : Char) (h : isAsciiLetter c = true) :
    isWsChar c = false := by
  cases hb : isWsChar c with
  | false => rfl
  | true => exact absurd h (by simp [(wsChars_not_in_classes c hb).2.2.2])

theorem trim_not_empty_of_any (text : JStr) (p : Char → Bool)
    (hws : ∀ c, p c = true → isWsChar c = false)
    (h : text.any p = true) : (trimWs text).isEmpty = false := by
  obtain ⟨c, hc, hcp⟩ := List.any_eq_true.mp h
  exact trimWs_not_empty_of_mem text c hc (hws c hcp)

/-- Claim C6: `detectAndUpdateLanguage` classifies by testing the Bengali,
Arabic, Devanagari, then Latin ranges in that order; it always returns the
detected code; it leaves the store untouched whenever the stored language
preference is a nonempty value other than `auto`; and on a fresh record a
first call with Bengali text returns `bn` and persists `bn`, while a second
call with English text returns `en` but leaves the persisted preference `bn`. -/
theorem c6_detect_and_update_language :
    (∀ text : JStr, text.any isBengaliChar = true →
        detectLanguageCode text = "bn".toList)
    ∧ (∀ text : JStr, text.any isBengaliChar = false →
        text.any isArabicChar = true → detectLanguageCode text = "ar".toList)
    ∧ (∀ text : JStr, text.any isBengaliChar = false →
        text.any isArabicChar = false → text.any isDevanagariChar = true →
        detectLanguageCode text = "hi".toList)
    ∧ (∀ text : JStr, text.any isBengaliChar = false →
        text.any isArabicChar = false → text.any isDevanagariChar = false →
        text.any isAsciiLetter = true → detectLanguageCode text = "en".toList)
    ∧ (∀ (fs : FileSystem) (userId : JStr) (isGroup : Bool) (text now : JStr),
        (detectAndUpdateLanguage fs userId isGroup text now).1
          = detectLanguageCode text)
    ∧ (∀ (fs : FileSystem) (userId : JStr) (isGroup : Bool) (text now : JStr),
        (loadUserData fs userId isGroup now).preferences.language ≠ [] →
        (loadUserData fs userId isGroup now).preferences.language ≠ "auto".toList →
        (detectAndUpdateLanguage fs userId isGroup text now).2 = fs)
    ∧ ((detectAndUpdateLanguage [] "user1".toList false "আমি".toList "t1".toList).1
          = "bn".toList
        ∧ (loadUserData c6ExampleFs "user1".toList false "t2".toList).preferences.language
          = "bn".toList
        ∧ (detectAndUpdateLanguage c6ExampleFs "user1".toList false "hello".toList
            "t2".toList).1 = "en".toList
        ∧ (loadUserData
            (detectAndUpdateLanguage c6ExampleFs "user1".toList false "hello".toList
              "t2".toList).2
            "user1".toList false "t3".toList).preferences.language = "bn".toList) := by
  refine ⟨?_, ?_, ?_, ?_, ?_, ?_, by decide, by decide, by decide, by decide⟩
  · intro text h
    have htrim := trim_not_empty_of_any text isBengaliChar not_ws_of_bengali h
    unfold detectLanguageCode
    simp [htrim, h]
  · intro text h1 h2
    have htrim := trim_not_empty_of_any text isArabicChar not_ws_of_arabic h2
    unfold detectLanguageCode
    simp [htrim, h1, h2]
  · intro text h1 h2 h3
    have htrim := trim_not_empty_of_any text isDevanagariChar not_ws_of_devanagari h3
    unfold detectLanguageCode
    simp [htrim, h1, h2, h3]
  · intro text h1 h2 h3 h4
    have htrim := trim_not_empty_of_any text isAsciiLetter not_ws_of_latin h4
    unfold detectLanguageCode
    simp [htrim, h1, h2, h3, h4]
  · intro fs userId isGroup text now
    unfold detectAndUpdateLanguage
    dsimp only
    split
    · split <;> rfl
    · rfl
  · intro fs userId isGroup text now h1 h2
    unfold detectAndUpdateLanguage
    dsimp only
    split
    · have hempty : (loadUserData fs userId isGroup now).preferences.language.isEmpty
          = false := by
        cases hl : (loadUserData fs userId isGroup now).preferences.language with
        | nil => exact absurd hl h1
        | cons a rest => rfl
      have h2' : (loadUserData fs userId isGroup now).preferences.language
          ≠ ['a', 'u', 't', 'o'] := h2
      simp [hempty, h2']
    · rfl

/-- Witness for C6: the detection-order and no-overwrite parts applied at
concrete inputs (Bengali text; the store already holding preference `bn`). -/
theorem c6_detect_and_update_language_witness :
    detectLanguageCode "আমি".toList = "bn".toList
    ∧ detectLanguageCode "hello".toList = "en".toList
    ∧ (detectAndUpdateLanguage c6ExampleFs "user1".toList false "hello".toList
        "t2".toList).2 = c6ExampleFs :=
  ⟨c6_detect_and_update_language.1 "আমি".toList (by decide),
   c6_detect_and_update_language.2.2.2.1 "hello".toList (by decide) (by decide)
     (by decide) (by decide),
   c6_detect_and_update_language.2.2.2.2.2.1 c6ExampleFs "user1".toList false
     "hello".toList "t2".toList (by decide) (by decide)⟩

/-! ## Claim C7 -/

/-- Claim C7: both bounded message caches evict, on `add` at capacity with a
fresh identifier, exactly the single oldest surviving entry in insertion order:
the store `⟨cap, (k0,v0) :: rest, k0 :: keys rest⟩` at capacity becomes
`⟨cap, rest ++ [(id,m)], keys rest ++ [id]⟩` — the head (oldest) entry is
removed, every other entry survives unchanged, and the new entry is appended.
In particular with capacity 2, after `add A`, `add B`, `add C` (distinct ids),
`get A` misses while `get B` and `get C` return their stored messages, in both
implementations. -/
theorem c7_fifo_eviction :
    (∀ (cap : Nat) (k0 id : String) (v0 m : StoreMsg) (rest : List (String × StoreMsg)),
        id ∉ (k0 :: rest.map Prod.fst) →
        rest.length + 1 = cap →
        msgId m = some id →
        MessageStore.add ⟨cap, (k0, v0) :: rest, k0 :: rest.map Prod.fst⟩ m
          = Except.ok (⟨cap, rest ++ [(id, m)], rest.map Prod.fst ++ [id]⟩, id))
    ∧
    (∀ (cap : Nat) (k0 id : Option String) (v0 m : StoreMsg)
        (rest : List (Option String × StoreMsg)),
        id ∉ ((k0, v0) :: rest).map Prod.fst →
        rest.length + 1 = cap →
        m.key = some ⟨id⟩ →
        CoreMessageStore.add ⟨cap, (k0, v0) :: rest⟩ m
          = Except.ok (⟨cap, rest ++ [(id, m)]⟩, id))
    ∧
    (let s := MessageStore.addOk (MessageStore.addOk
                (MessageStore.addOk (MessageStore.empty 2) msgA) msgB) msgC
     s.get "A" = none ∧ s.get "B" = some msgB ∧ s.get "C" = some msgC)
    ∧
    (let s := CoreMessageStore.addOk (CoreMessageStore.addOk
                (CoreMessageStore.addOk (CoreMessageStore.empty 2) msgA) msgB) msgC
     s.get (some "A") = none ∧ s.get (some "B") = some msgB
       ∧ s.get (some "C") = some msgC) := by
  refine ⟨?_, ?_, by decide, by decide⟩
  · intro cap k0 id v0 m rest hfresh hcap hid
    simp only [List.mem_cons, not_or] at hfresh
    have hlen : cap ≤ rest.length + 1 := by omega
    simp [MessageStore.add, hid, hlen, mapDelete,
      mapSet_of_not_mem_keys _ _ _ hfresh.2]
  · intro cap k0 id v0 m rest hfresh hcap hkey
    simp only [List.map_cons, List.mem_cons, not_or] at hfresh
    have hset := mapSet_of_not_mem_keys ((k0, v0) :: rest) id m
      (by simp only [List.map_cons, List.mem_cons, not_or]; exact hfresh)
    have hlen : cap < rest.length + 1 + 1 := by omega
    simp [CoreMessageStore.add, hkey, hset, hlen, mapDelete]

/-- Witness for C7: the general eviction equations instantiated on the concrete
capacity-2 store holding `A` (oldest) and `B`, adding `C`. -/
theorem c7_fifo_eviction_witness :
    MessageStore.add ⟨2, [("A", msgA), ("B", msgB)], ["A", "B"]⟩ msgC
        = Except.ok (⟨2, [("B", msgB), ("C", msgC)], ["B", "C"]⟩, "C")
    ∧ CoreMessageStore.add ⟨2, [(some "A", msgA), (some "B", msgB)]⟩ msgC
        = Except.ok (⟨2, [(some "B", msgB), (some "C", msgC)]⟩, some "C") := by
  constructor
  · exact c7_fifo_eviction.1 2 "A" "C" msgA msgC [("B", msgB)] (by decide) rfl rfl
  · exact c7_fifo_eviction.2.1 2 (some "A") (some "C") msgA msgC [(some "B", msgB)]
      (by decide) rfl rfl

/-! ## Claim C8 -/

/-- Claim C8 (amended): in the queue-based store (`src/messageStore.js`), `add`
signals an error for every message lacking a truthy `key.id`, throwing before
any mutation (the error branch produces no new store, so the cache is
unchanged).  In the core store (`src/src/core/messageStore.js`), `add` signals
an error — again before any mutation — only when the `key` object itself is
absent. -/
theorem c8_add_missing_id_error :
    (∀ (s : MessageStore) (m : StoreMsg), msgId m = none →
        MessageStore.add s m = Except.error "Invalid message: missing key.id")
    ∧
    (∀ (s : CoreMessageStore) (m : StoreMsg), m.key = none →
        CoreMessageStore.add s m
          = Except.error "TypeError: cannot read id of undefined") := by
  constructor
  · intro s m h
    simp [MessageStore.add, h]
  · intro s m h
    simp [CoreMessageStore.add, h]

/-- Witness for C8: a message without a `key` is rejected by both stores. -/
theorem c8_add_missing_id_error_witness :
    MessageStore.add (MessageStore.empty 2) ⟨none, "no key"⟩
        = Except.error "Invalid message: missing key.id"
    ∧ CoreMessageStore.add (CoreMessageStore.empty 2) ⟨none, "no key"⟩
        = Except.error "TypeError: cannot read id of undefined" :=
  ⟨c8_add_missing_id_error.1 (MessageStore.empty 2) ⟨none, "no key"⟩ rfl,
   c8_add_missing_id_error.2 (CoreMessageStore.empty 2) ⟨none, "no key"⟩ rfl⟩

/-- Counterexample to C8 as stated: in the core store a message that has a
`key` object but no `key.id` (an `undefined` identifier) does NOT signal an
error — it is silently stored under the `undefined` key, changing the cache
contents. -/
theorem c8_core_silently_stores_idless_message :
    CoreMessageStore.add (CoreMessageStore.empty 100) ⟨some ⟨none⟩, "no id"⟩
        = Except.ok (⟨100, [(none, ⟨some ⟨none⟩, "no id"⟩)]⟩, none)
    ∧ (CoreMessageStore.addOk (CoreMessageStore.empty 100) ⟨some ⟨none⟩, "no id"⟩).size
        ≠ (CoreMessageStore.empty 100).size := by
  constructor
  · rfl
  · decide

/-! ## Claim C10 -/

/-- Claim C10 (amended): `add` of an already-cached message is idempotent in
the core store — the size does not increase (it is unchanged) and no other
entry is evicted.  In the queue-based store the same re-`add` at capacity is
NOT idempotent: it evicts the oldest other entry (see the counterexample). -/
theorem c10_core_add_idempotent (s : CoreMessageStore) (m : StoreMsg)
    (kid : Option String) (hkey : m.key = some ⟨kid⟩)
    (hcap : s.messages.length ≤ s.maxSize)
    (hmem : kid ∈ s.messages.map Prod.fst) :
    CoreMessageStore.add s m
        = Except.ok (⟨s.maxSize, mapSet s.messages kid m⟩, kid)
    ∧ (mapSet s.messages kid m).length = s.messages.length
    ∧ ∀ k', k' ≠ kid →
        mapGet (mapSet s.messages kid m) k' = mapGet s.messages k' := by
  have hlen := mapSet_length_of_mem_keys s.messages kid m hmem
  refine ⟨?_, hlen, fun k' hk' => mapGet_mapSet_ne _ _ _ _ hk'⟩
  have hnot : ¬ s.maxSize < (mapSet s.messages kid m).length := by omega
  simp [CoreMessageStore.add, hkey, hnot]

/-- Witness for C10: re-adding `B` to a full capacity-2 core store keeps the
size at 2 and leaves `A` cached. -/
theorem c10_core_add_idempotent_witness :
    CoreMessageStore.add ⟨2, [(some "A", msgA), (some "B", msgB)]⟩ msgB
        = Except.ok (⟨2, mapSet [(some "A", msgA), (some "B", msgB)] (some "B") msgB⟩,
            some "B")
    ∧ (mapSet [(some "A", msgA), (some "B", msgB)] (some "B") msgB).length
        = [(some "A", msgA), (some "B", msgB)].length
    ∧ mapGet (mapSet [(some "A", msgA), (some "B", msgB)] (some "B") msgB) (some "A")
        = mapGet [(some "A", msgA), (some "B", msgB)] (some "A") :=
  ⟨(c10_core_add_idempotent ⟨2, [(some "A", msgA), (some "B", msgB)]⟩ msgB
      (some "B") rfl (by decide) (by decide)).1,
   (c10_core_add_idempotent ⟨2, [(some "A", msgA), (some "B", msgB)]⟩ msgB
      (some "B") rfl (by decide) (by decide)).2.1,
   (c10_core_add_idempotent ⟨2, [(some "A", msgA), (some "B", msgB)]⟩ msgB
      (some "B") rfl (by decide) (by decide)).2.2 (some "A") (by decide)⟩

/-- Counterexample to C10 as stated: in the queue-based store
(`src/messageStore.js`), re-adding the already-present message `B` to the full
capacity-2 cache `[A, B]` evicts the unrelated entry `A` (the queue length —
not the map size — triggers eviction, and the queue head is `A`). -/
theorem c10_queue_readd_evicts_other_entry :
    (MessageStore.addOk
        (MessageStore.addOk (MessageStore.addOk (MessageStore.empty 2) msgA) msgB)
        msgB).get "A" = none
    ∧ (MessageStore.addOk (MessageStore.addOk (MessageStore.empty 2) msgA) msgB).get "A"
        = some msgA := by
  decide

/-! ## Claim C9 -/

/-- Claim C9 (amended): the relay-intent flag is true exactly when the cleaned
message (second argument) is non-empty AND the lowercased raw text contains one
of the fixed English or Bengali markers; and the flag selects the framing
sentence of the final composed relay message (the two framings always differ).
-/
theorem c9_tell_someone_markers :
    (∀ originalMessage cleanedMessage : JStr,
        checkIfTellSomeoneMessage originalMessage cleanedMessage = true ↔
          cleanedMessage ≠ []
            ∧ ∃ p, (p ∈ englishTellPatterns ∨ p ∈ bengaliTellPatterns)
                ∧ containsTok p (toLowerList originalMessage) = true)
    ∧ (∀ g s e : JStr,
        composePersonalizedMessage g s e true ≠ composePersonalizedMessage g s e false)
    := by
  constructor
  · intro o cl
    unfold checkIfTellSomeoneMessage
    cases o with
    | nil =>
        simp only [List.isEmpty_nil, Bool.true_or, if_true, Bool.false_eq_true,
          false_iff, not_and]
        intro hcl
        rintro ⟨p, hp, hcont⟩
        have hpe : containsTok p (toLowerList []) = p.isEmpty := rfl
        rw [hpe] at hcont
        have hne : ∀ q ∈ englishTellPatterns ++ bengaliTellPatterns,
            q.isEmpty = false := by decide
        rcases hp with hp | hp
        · exact absurd hcont (by simp [hne p (List.mem_append.mpr (Or.inl hp))])
        · exact absurd hcont (by simp [hne p (List.mem_append.mpr (Or.inr hp))])
    | cons a rest =>
        cases cl with
        | nil => simp
        | cons b rest2 =>
            simp only [List.isEmpty_cons, Bool.or_self, Bool.false_eq_true, if_false,
              Bool.or_eq_true, List.any_eq_true, ne_eq, reduceCtorEq, not_false_iff,
              true_and]
            constructor
            · rintro (⟨p, hp, hc⟩ | ⟨p, hp, hc⟩)
              · exact ⟨p, Or.inl hp, hc⟩
              · exact ⟨p, Or.inr hp, hc⟩
            · rintro ⟨p, hp | hp, hc⟩
              · exact Or.inl ⟨p, hp, hc⟩
              · exact Or.inr ⟨p, hp, hc⟩
  · intro g s e h
    have hlen := congrArg List.length h
    simp only [composePersonalizedMessage, if_true, Bool.true_eq_false,
      Bool.false_eq_true, if_false, List.length_append] at hlen
    have e1 : (" আপনাকে এই বার্তা পাঠাতে বলেছে:\n\n\"".toList).length = 34 := rfl
    have e2 : (" আপনাকে বলেছে:\n\n\"".toList).length = 17 := rfl
    rw [e1, e2] at hlen
    omega

/-- Witness for C9: on the raw text `tell him ok` with non-empty cleaned text
`ok`, the flag is true, and the two framings differ at concrete arguments. -/
theorem c9_tell_someone_markers_witness :
    checkIfTellSomeoneMessage "tell him ok".toList "ok".toList = true
    ∧ composePersonalizedMessage [] [] [] true ≠ composePersonalizedMessage [] [] [] false :=
  ⟨(c9_tell_someone_markers.1 "tell him ok".toList "ok".toList).mpr
      ⟨by decide, "tell".toList, Or.inl (by decide), by decide⟩,
   c9_tell_someone_markers.2 [] [] []⟩

/-- Counterexample to C9 as stated: the raw message `@tell_me` does contain the
marker `tell`, but the pipeline strips the mention to an empty cleaned message
and `checkIfTellSomeoneMessage` then returns false — the flag is NOT true
exactly when the raw text contains a marker. -/
theorem c9_marker_present_but_flag_false :
    containsTok "tell".toList (toLowerList "@tell_me".toList) = true
    ∧ "tell".toList ∈ englishTellPatterns
    ∧ extractActualMessage "@tell_me".toList
        (extractMentionedNames "@tell_me".toList)
        (extractMentionedNumbers "@tell_me".toList) = []
    ∧ checkIfTellSomeoneMessage "@tell_me".toList
        (extractActualMessage "@tell_me".toList
          (extractMentionedNames "@tell_me".toList)
          (extractMentionedNumbers "@tell_me".toList)) = false := by
  refine ⟨by decide, by decide, ?_, ?_⟩ <;>
    simp [extractActualMessage, extractMentionedNames, extractMentionedNumbers,
      numScan, tryNumAt, dropOpt, fallbackNumbers, splitWs, isValidNumberToken,
      nameScan, tryNameAt, tryAbsorbWord, underscoreScan, tryUnderscoreAt,
      removeTokWB, removeResidual, collapseWs, trimWs, boundaryAfter,
      checkIfTellSomeoneMessage, englishTellPatterns, bengaliTellPatterns,
      containsTok, startsWithTok, toLowerList, toLowerChar, isWsChar, isDigitChar,
      isNameDelim, isWordChar, isAlnumChar, isAsciiLetter, isUpperAlpha,
      isLowerAlpha, invLRE, invPDF, List.takeWhile, List.dropWhile, List.filter,
      List.filterMap, List.foldl, List.any, List.all]

/-! ## Shared lemmas for the extraction claims (C3, C4) -/

theorem wa_take_append (l₁ l₂ : List α) : (l₁ ++ l₂).take l₁.length = l₁ := by
  induction l₁ with
  | nil => rfl
  | cons a rest ih => simp [List.take, ih]

theorem wa_drop_append (l₁ l₂ : List α) : (l₁ ++ l₂).drop l₁.length = l₂ := by
  induction l₁ with
  | nil => rfl
  | cons a rest ih => simp [List.drop, ih]

theorem wa_takeWhile_append_all (p : α → Bool) (l₁ l₂ : List α)
    (h : l₁.all p = true) : (l₁ ++ l₂).takeWhile p = l₁ ++ l₂.takeWhile p := by
  induction l₁ with
  | nil => rfl
  | cons a rest ih =>
      simp only [List.all_cons, Bool.and_eq_true] at h
      simp [List.takeWhile_cons, h.1, ih h.2]

theorem wa_dropWhile_append_all (p : α → Bool) (l₁ l₂ : List α)
    (h : l₁.all p = true) : (l₁ ++ l₂).dropWhile p = l₂.dropWhile p := by
  induction l₁ with
  | nil => rfl
  | cons a rest ih =>
      simp only [List.all_cons, Bool.and_eq_true] at h
      simp [List.dropWhile_cons, h.1, ih h.2]

theorem wa_takeWhile_append_not_all (p : α → Bool) (l₁ l₂ : List α)
    (h : l₁.all p = false) : (l₁ ++ l₂).takeWhile p = l₁.takeWhile p := by
  induction l₁ with
  | nil => simp at h
  | cons a rest ih =>
      cases ha : p a with
      | false => simp [List.takeWhile_cons, ha]
      | true =>
          simp only [List.all_cons, ha, Bool.true_and] at h
          simp [List.takeWhile_cons, ha, ih h]

theorem wa_dropWhile_append_not_all (p : α → Bool) (l₁ l₂ : List α)
    (h : l₁.all p = false) : (l₁ ++ l₂).dropWhile p = l₁.dropWhile p ++ l₂ := by
  induction l₁ with
  | nil => simp at h
  | cons a rest ih =>
      cases ha : p a with
      | false => simp [List.dropWhile_cons, ha]
      | true =>
          simp only [List.all_cons, ha, Bool.true_and] at h
          simp [List.dropWhile_cons, ha, ih h]

theorem wa_mem_of_dropWhile (p : α → Bool) (l : List α) (c : α)
    (h : c ∈ l.dropWhile p) : c ∈ l := by
  induction l with
  | nil => simp [List.dropWhile] at h
  | cons a rest ih =>
      cases ha : p a with
      | false => rw [List.dropWhile_cons, ha] at h; simpa using h
      | true =>
          rw [List.dropWhile_cons, ha] at h
          simp only [if_true] at h
          exact List.mem_cons_of_mem a (ih h)

theorem wa_mem_of_drop (n : Nat) (l : List α) (c : α) (h : c ∈ l.drop n) : c ∈ l :=
  List.mem_of_mem_drop h

theorem wa_any_eq_false_all_not (p : α → Bool) (l : List α) (h : l.any p = false) :
    l.all (fun c => !p c) = true := by
  induction l with
  | nil => rfl
  | cons a rest ih =>
      simp only [List.any_cons, Bool.or_eq_false_iff] at h
      simp [List.all_cons, h.1, ih h.2]

/-! Membership preservation through the stripping passes. -/

theorem mem_removeTokWB (tok : JStr) (c : Char) :
    ∀ (n : Nat) (l : JStr), l.length ≤ n → c ∈ removeTokWB tok l → c ∈ l := by
  intro n
  induction n with
  | zero =>
      intro l hl h
      cases l with
      | nil => simpa [removeTokWB] using h
      | cons a rest => simp at hl
  | succ k ih =>
      intro l hl h
      cases l with
      | nil => simpa [removeTokWB] using h
      | cons a rest =>
          rw [removeTokWB] at h
          split at h
          · have hlen : (rest.drop tok.length).length ≤ k := by
              have := rest.length_drop tok.length
              simp only [List.length_cons] at hl
              omega
            exact List.mem_cons_of_mem a (wa_mem_of_drop _ _ _ (ih _ hlen h))
          · rcases List.mem_cons.mp h with h | h
            · exact h ▸ List.mem_cons_self a rest
            · have hlen : rest.length ≤ k := by
                simp only [List.length_cons] at hl
                omega
              exact List.mem_cons_of_mem a (ih _ hlen h)

theorem mem_removeResidual (c : Char) :
    ∀ (n : Nat) (l : JStr), l.length ≤ n → c ∈ removeResidual l → c ∈ l := by
  intro n
  induction n with
  | zero =>
      intro l hl h
      cases l with
      | nil => simpa [removeResidual] using h
      | cons a rest => simp at hl
  | succ k ih =>
      intro l hl h
      cases l with
      | nil => simpa [removeResidual] using h
      | cons a rest =>
          rw [removeResidual] at h
          split at h
          · have h1 := wa_dropWhile_length_le (fun d => !isWsChar d) rest
            have h2 := (rest.dropWhile fun d => !isWsChar d).length_drop 1
            have hlen : ((rest.dropWhile fun d => !isWsChar d).drop 1).length ≤ k := by
              simp only [List.length_cons] at hl
              omega
            have hmem := ih _ hlen h
            exact List.mem_cons_of_mem a
              (wa_mem_of_dropWhile _ _ _ (wa_mem_of_drop _ _ _ hmem))
          · rcases List.mem_cons.mp h with h | h
            · exact h ▸ List.mem_cons_self a rest
            · have hlen : rest.length ≤ k := by
                simp only [List.length_cons] at hl
                omega
              exact List.mem_cons_of_mem a (ih _ hlen h)

theorem mem_collapseWs (c : Char) :
    ∀ (n : Nat) (l : JStr), l.length ≤ n → c ∈ collapseWs l → c ∈ l ∨ c = ' ' := by
  intro n
  induction n with
  | zero =>
      intro l hl h
      cases l with
      | nil => simp [collapseWs] at h
      | cons a rest => simp at hl
  | succ k ih =>
      intro l hl h
      cases l with
      | nil => simp [collapseWs] at h
      | cons a rest =>
          rw [collapseWs] at h
          split at h
          · rcases List.mem_cons.mp h with h | h
            · exact Or.inr h
            · have h1 := wa_dropWhile_length_le isWsChar rest
              have hlen : (rest.dropWhile isWsChar).length ≤ k := by
                simp only [List.length_cons] at hl
                omega
              rcases ih _ hlen h with h | h
              · exact Or.inl (List.mem_cons_of_mem a (wa_mem_of_dropWhile _ _ _ h))
              · exact Or.inr h
          · rcases List.mem_cons.mp h with h | h
            · exact Or.inl (h ▸ List.mem_cons_self a rest)
            · have hlen : rest.length ≤ k := by
                simp only [List.length_cons] at hl
                omega
              rcases ih _ hlen h with h | h
              · exact Or.inl (List.mem_cons_of_mem a h)
              · exact Or.inr h

theorem mem_trimWs (l : JStr) (c : Char) (h : c ∈ trimWs l) : c ∈ l := by
  unfold trimWs at h
  have h1 := List.mem_reverse.mp h
  have h2 := wa_mem_of_dropWhile _ _ _ h1
  have h3 := List.mem_reverse.mp h2
  exact wa_mem_of_dropWhile _ _ _ h3

/-! Scanners on `@`-free text. -/

theorem numScan_append_no_at (l m : JStr) (h : '@' ∉ l) :
    numScan (l ++ m) = numScan m := by
  induction l with
  | nil => rfl
  | cons a rest ih =>
      simp only [List.mem_cons, not_or] at h
      rw [List.cons_append, numScan, if_neg (fun hc => h.1 hc.symm)]
      exact ih h.2

theorem numScan_no_at (l : JStr) (h : '@' ∉ l) : numScan l = [] := by
  have h0 := numScan_append_no_at l [] h
  rw [List.append_nil] at h0
  rw [h0]
  simp [numScan]

theorem underscoreScan_append_no_at (l m : JStr) (h : '@' ∉ l) :
    underscoreScan (l ++ m) = underscoreScan m := by
  induction l with
  | nil => rfl
  | cons a rest ih =>
      simp only [List.mem_cons, not_or] at h
      rw [List.cons_append, underscoreScan, if_neg (fun hc => h.1 hc.symm)]
      exact ih h.2

theorem underscoreScan_no_at (l : JStr) (h : '@' ∉ l) : underscoreScan l = [] := by
  have h0 := underscoreScan_append_no_at l [] h
  rw [List.append_nil] at h0
  rw [h0]
  simp [underscoreScan]

theorem nameScan_append_no_at (l : JStr) :
    ∀ (p : Option Char) (m : JStr), '@' ∉ l →
      nameScan p (l ++ m) = nameScan (lastOr p l) m := by
  induction l with
  | nil => intro p m _; rfl
  | cons a rest ih =>
      intro p m h
      simp only [List.mem_cons, not_or] at h
      rw [List.cons_append, nameScan, if_neg (fun hc => h.1 hc.symm)]
      exact ih (some a) m h.2

theorem nameScan_no_at (l : JStr) (p : Option Char) (h : '@' ∉ l) :
    nameScan p l = [] := by
  have := nameScan_append_no_at l p [] h
  simpa using this

theorem removeTokWB_append_no_at (tok l m : JStr) (h : '@' ∉ l) :
    removeTokWB tok (l ++ m) = l ++ removeTokWB tok m := by
  induction l with
  | nil => rfl
  | cons a rest ih =>
      simp only [List.mem_cons, not_or] at h
      have hne : a ≠ '@' := fun hc => h.1 hc.symm
      rw [List.cons_append, removeTokWB, if_neg (by simp [hne])]
      rw [ih h.2, List.cons_append]

theorem removeTokWB_no_at (tok l : JStr) (h : '@' ∉ l) :
    removeTokWB tok l = l := by
  have h0 := removeTokWB_append_no_at tok l [] h
  rw [List.append_nil] at h0
  rw [h0, removeTokWB, List.append_nil]

theorem removeResidual_append_no_at (l m : JStr) (h : '@' ∉ l) :
    removeResidual (l ++ m) = l ++ removeResidual m := by
  induction l with
  | nil => rfl
  | cons a rest ih =>
      simp only [List.mem_cons, not_or] at h
      have hne : a ≠ '@' := fun hc => h.1 hc.symm
      rw [List.cons_append, removeResidual, if_neg (by simp [hne])]
      rw [ih h.2, List.cons_append]

theorem removeResidual_no_at (l : JStr) (h : '@' ∉ l) : removeResidual l = l := by
  have h0 := removeResidual_append_no_at l [] h
  rw [List.append_nil] at h0
  rw [h0, removeResidual, List.append_nil]

/-- Every name produced at an `@` position is in the scan's output. -/
theorem nameScan_mem (l : JStr) :
    ∀ (p : Option Char) (m : JStr) (n : JStr),
      tryNameAt (lastOr p l) m = some n → n ∈ nameScan p (l ++ '@' :: m) := by
  induction l with
  | nil =>
      intro p m n h
      have h' : tryNameAt p m = some n := h
      rw [List.nil_append]
      simp [nameScan, h']
  | cons a rest ih =>
      intro p m n h
      have hmem := ih (some a) m n h
      rw [List.cons_append]
      rw [show nameScan p (a :: (rest ++ '@' :: m))
          = (if a = '@' then
              match tryNameAt p (rest ++ '@' :: m) with
              | some n2 => n2 :: nameScan (some a) (rest ++ '@' :: m)
              | none => nameScan (some a) (rest ++ '@' :: m)
             else nameScan (some a) (rest ++ '@' :: m)) from rfl]
      by_cases ha : a = '@'
      · rw [if_pos ha]
        cases htry : tryNameAt p (rest ++ '@' :: m) with
        | none => exact hmem
        | some n2 => exact List.mem_cons_of_mem n2 hmem
      · rw [if_neg ha]
        exact hmem

/-! Equation-shaped unfolding lemmas for the scanners. -/

theorem mem_dropOpt (ch x : Char) (l : JStr) (h : x ∈ dropOpt ch l) : x ∈ l := by
  cases l with
  | nil => simpa [dropOpt] using h
  | cons a rest =>
      rw [dropOpt] at h
      split at h
      · exact List.mem_cons_of_mem a h
      · exact h

theorem numScan_cons_at (rest : JStr) :
    numScan ('@' :: rest)
      = match tryNumAt rest with
        | some (n, r) => n :: numScan r
        | none => numScan rest := by
  rw [numScan]
  simp only [if_pos rfl]
  cases htry : tryNumAt rest with
  | none => simp
  | some nr => cases nr with | mk n r => simp

theorem underscoreScan_cons_at (rest : JStr) :
    underscoreScan ('@' :: rest)
      = match tryUnderscoreAt rest with
        | some (n, r) => n :: underscoreScan r
        | none => underscoreScan rest := by
  rw [underscoreScan]
  simp only [if_pos rfl]
  cases htry : tryUnderscoreAt rest with
  | none => simp
  | some nr => cases nr with | mk n r => simp

theorem nameScan_cons (p : Option Char) (c : Char) (rest : JStr) :
    nameScan p (c :: rest)
      = if c = '@' then
          match tryNameAt p rest with
          | some n => n :: nameScan (some c) rest
          | none => nameScan (some c) rest
        else nameScan (some c) rest := rfl

theorem removeTokWB_cons (tok : JStr) (c : Char) (rest : JStr) :
    removeTokWB tok (c :: rest)
      = if c = '@' && rest.take tok.length = tok
            && boundaryAfter tok (rest.drop tok.length).head? then
          removeTokWB tok (rest.drop tok.length)
        else c :: removeTokWB tok rest := by
  rw [removeTokWB]

theorem removeResidual_cons (c : Char) (rest : JStr) :
    removeResidual (c :: rest)
      = if c = '@' && !(rest.takeWhile fun d => !isWsChar d).isEmpty then
          removeResidual ((rest.dropWhile fun d => !isWsChar d).drop 1)
        else c :: removeResidual rest := by
  rw [removeResidual]

/-! ## Claim C3 -/

/-- The number regex matched right after an `@` on the token `1234567890`
followed by a non-digit. -/
theorem tryNumAt_token (c : Char) (t : JStr) (hdc : isDigitChar c = false) :
    tryNumAt ("1234567890".toList ++ c :: t)
      = some ("1234567890".toList, dropOpt invPDF (c :: t)) := by
  have hdc' : (decide (0x30 ≤ c.toNat) && decide (c.toNat ≤ 0x39)) = false := hdc
  rw [show "1234567890".toList
      = '1' :: '2' :: '3' :: '4' :: '5' :: '6' :: '7' :: '8' :: '9' :: '0' :: [] from rfl]
  simp [tryNumAt, dropOpt, invLRE, invPDF, List.takeWhile, List.dropWhile,
    isWsChar, isDigitChar, hdc']

/-- The name extraction never fires on an `@` followed by a digit. -/
theorem tryNameAt_digits_none (p : Option Char) (post : JStr) :
    tryNameAt p ("1234567890".toList ++ post) = none := by
  cases hpa : (match p with | some q => isAlnumChar q | none => false) with
  | true => simp [tryNameAt, hpa]
  | false =>
      rw [show "1234567890".toList ++ post
          = '1' :: ("234567890".toList ++ post) from rfl]
      simp [tryNameAt, hpa, List.takeWhile_cons,
        show isNameDelim '1' = false from by decide,
        show isDigitChar '1' = true from by decide]

/-- The underscore-compound regex never fires on an `@` followed by a digit. -/
theorem tryUnderscoreAt_digits_none (post : JStr) :
    tryUnderscoreAt ("1234567890".toList ++ post) = none := by
  rw [show "1234567890".toList ++ post
      = '1' :: ("234567890".toList ++ post) from rfl]
  simp [tryUnderscoreAt, List.takeWhile_cons,
    show isAsciiLetter '1' = false from by decide]

theorem no_at_digits_append (post : JStr) (hpost : '@' ∉ post) :
    '@' ∉ "1234567890".toList ++ post := by
  intro hmem
  rcases List.mem_append.mp hmem with h | h
  · exact absurd h (by decide)
  · exact hpost h

/-- Claim C3 (amended): for every text in which the token `@1234567890` occurs
not immediately followed by another digit, and in which the only `@` character
is the one starting the token, number extraction returns exactly
`[1234567890]`, name extraction returns nothing, and stripping the mentions
leaves a result with no `@` character. -/
theorem c3_number_mention_extraction (pre post : JStr)
    (hpre : '@' ∉ pre) (hpost : '@' ∉ post)
    (hd : ∀ c, post.head? = some c → isDigitChar c = false) :
    extractMentionedNumbers (pre ++ '@' :: ("1234567890".toList ++ post))
      = ["1234567890".toList]
    ∧ extractMentionedNames (pre ++ '@' :: ("1234567890".toList ++ post)) = []
    ∧ '@' ∉ extractActualMessage (pre ++ '@' :: ("1234567890".toList ++ post))
        (extractMentionedNames (pre ++ '@' :: ("1234567890".toList ++ post)))
        (extractMentionedNumbers (pre ++ '@' :: ("1234567890".toList ++ post))) := by
  have hne : (pre ++ '@' :: ("1234567890".toList ++ post)).isEmpty = false := by
    cases pre <;> rfl
  have hDfree : '@' ∉ "1234567890".toList ++ post := no_at_digits_append post hpost
  -- the regex scan finds exactly the one number
  have htry : ∃ r, tryNumAt ("1234567890".toList ++ post)
      = some ("1234567890".toList, r) ∧ '@' ∉ r := by
    cases hp : post with
    | nil => exact ⟨[], by decide, by simp⟩
    | cons c t =>
        have hdc : isDigitChar c = false := hd c (by rw [hp]; rfl)
        refine ⟨dropOpt invPDF (c :: t), tryNumAt_token c t hdc, ?_⟩
        intro hmem
        have := mem_dropOpt _ _ _ hmem
        rw [← hp] at this
        exact hpost this
  obtain ⟨r, htry, hrfree⟩ := htry
  have hscan : numScan (pre ++ '@' :: ("1234567890".toList ++ post))
      = ["1234567890".toList] := by
    rw [numScan_append_no_at pre _ hpre, numScan_cons_at, htry]
    show "1234567890".toList :: numScan r = ["1234567890".toList]
    rw [numScan_no_at r hrfree]
  have hnumbers : extractMentionedNumbers (pre ++ '@' :: ("1234567890".toList ++ post))
      = ["1234567890".toList] := by
    simp only [extractMentionedNumbers, hne, Bool.false_eq_true, if_false]
    rw [hscan]
    rfl
  have hnames : extractMentionedNames (pre ++ '@' :: ("1234567890".toList ++ post))
      = [] := by
    have h1 : nameScan none (pre ++ '@' :: ("1234567890".toList ++ post)) = [] := by
      rw [nameScan_append_no_at pre _ _ hpre, nameScan_cons, if_pos rfl,
        tryNameAt_digits_none]
      exact nameScan_no_at _ _ hDfree
    have h2 : underscoreScan (pre ++ '@' :: ("1234567890".toList ++ post)) = [] := by
      rw [underscoreScan_append_no_at pre _ hpre, underscoreScan_cons_at,
        tryUnderscoreAt_digits_none]
      exact underscoreScan_no_at _ hDfree
    simp only [extractMentionedNames, hne, Bool.false_eq_true, if_false]
    rw [h1, h2]
    rfl
  refine ⟨hnumbers, hnames, ?_⟩
  rw [hnames, hnumbers]
  -- the stripped text never contains an `@`
  have hkey : '@' ∉ removeResidual (removeTokWB "1234567890".toList
      (pre ++ '@' :: ("1234567890".toList ++ post))) := by
    have hsplit := removeTokWB_append_no_at "1234567890".toList pre
      ('@' :: ("1234567890".toList ++ post)) hpre
    rw [hsplit, removeTokWB_cons]
    rw [wa_take_append, wa_drop_append]
    cases hw : (match post.head? with | some w => isWordChar w | none => false) with
    | false =>
        have hbound : boundaryAfter "1234567890".toList post.head? = true := by
          cases hph : post.head? with
          | none => decide
          | some w =>
              have hw' : isWordChar w = false := by rw [hph] at hw; exact hw
              unfold boundaryAfter
              simp [hw', show isWordChar '0' = true from by decide]
        have hbound' : boundaryAfter
            ['1', '2', '3', '4', '5', '6', '7', '8', '9', '0'] post.head? = true :=
          hbound
        rw [if_pos (by simp [hbound, hbound'])]
        rw [removeTokWB_no_at _ _ hpost]
        rw [removeResidual_no_at _ (by
          intro hmem
          rcases List.mem_append.mp hmem with h | h
          · exact hpre h
          · exact hpost h)]
        intro hmem
        rcases List.mem_append.mp hmem with h | h
        · exact hpre h
        · exact hpost h
    | true =>
        have hbound : boundaryAfter "1234567890".toList post.head? = false := by
          cases hph : post.head? with
          | none => rw [hph] at hw; simp at hw
          | some w =>
              have hw' : isWordChar w = true := by rw [hph] at hw; exact hw
              unfold boundaryAfter
              simp [hw', show isWordChar '0' = true from by decide]
        have hbound' : boundaryAfter
            ['1', '2', '3', '4', '5', '6', '7', '8', '9', '0'] post.head? = false :=
          hbound
        rw [if_neg (by simp [hbound, hbound'])]
        rw [removeTokWB_append_no_at _ _ post (by decide),
          removeTokWB_no_at _ _ hpost]
        rw [removeResidual_append_no_at pre _ hpre, removeResidual_cons]
        rw [if_pos (by simp [show isWsChar '1' = false from by decide])]
        rw [wa_dropWhile_append_all _ _ _ (by decide)]
        have hsfree : '@' ∉ (post.dropWhile fun d => !isWsChar d).drop 1 := by
          intro hmem
          exact hpost (wa_mem_of_dropWhile _ _ _ (wa_mem_of_drop _ _ _ hmem))
        rw [removeResidual_no_at _ hsfree]
        intro hmem
        rcases List.mem_append.mp hmem with h | h
        · exact hpre h
        · exact hsfree h
  -- push the freedom through collapsing and trimming
  intro hmem
  have h0 : (pre ++ '@' :: ("1234567890".toList ++ post)).isEmpty = false := hne
  rw [extractActualMessage] at hmem
  rw [h0] at hmem
  simp only [Bool.false_eq_true, if_false, List.foldl_nil, List.foldl_cons] at hmem
  have h1 := mem_trimWs _ _ hmem
  rcases mem_collapseWs '@' _ _ le_rfl h1 with h2 | h2
  · exact hkey h2
  · exact absurd h2 (by decide)

/-- Witness for C3 on the concrete text `hi @1234567890 ok`. -/
theorem c3_number_mention_extraction_witness :
    extractMentionedNumbers "hi @1234567890 ok".toList = ["1234567890".toList]
    ∧ extractMentionedNames "hi @1234567890 ok".toList = []
    ∧ '@' ∉ extractActualMessage "hi @1234567890 ok".toList
        (extractMentionedNames "hi @1234567890 ok".toList)
        (extractMentionedNumbers "hi @1234567890 ok".toList) :=
  c3_number_mention_extraction "hi ".toList " ok".toList
    (by decide) (by decide) (by decide)

/-- Counterexample to C3 as stated: the text `@1234567890 @` contains the
token `@1234567890` and extraction returns `[1234567890]`, but stripping the
mentions leaves exactly `@` — the result does contain an `@` character. -/
theorem c3_stray_at_survives_strip :
    extractMentionedNumbers "@1234567890 @".toList = ["1234567890".toList]
    ∧ extractActualMessage "@1234567890 @".toList
        (extractMentionedNames "@1234567890 @".toList)
        (extractMentionedNumbers "@1234567890 @".toList) = ['@'] := by
  constructor <;>
    simp [extractActualMessage, extractMentionedNames, extractMentionedNumbers,
      numScan, tryNumAt, dropOpt, fallbackNumbers, splitWs, isValidNumberToken,
      nameScan, tryNameAt, tryAbsorbWord, underscoreScan, tryUnderscoreAt,
      removeTokWB, removeResidual, collapseWs, trimWs, boundaryAfter,
      toLowerList, toLowerChar, isWsChar, isDigitChar, isNameDelim, isWordChar,
      isAlnumChar, isAsciiLetter, isUpperAlpha, isLowerAlpha, invLRE, invPDF,
      List.takeWhile, List.dropWhile, List.filter, List.filterMap, List.foldl,
      List.any, List.all]

/-! ## Claim C4 -/

theorem upper_not_digit (c : Char) (h : isUpperAlpha c = true) :
    isDigitChar c = false := by
  cases hd : isDigitChar c with
  | false => rfl
  | true =>
      exfalso
      simp only [isUpperAlpha, Bool.and_eq_true, decide_eq_true_eq] at h
      simp only [isDigitChar, Bool.and_eq_true, decide_eq_true_eq] at hd
      omega

theorem lower_not_digit (c : Char) (h : isLowerAlpha c = true) :
    isDigitChar c = false := by
  cases hd : isDigitChar c with
  | false => rfl
  | true =>
      exfalso
      simp only [isLowerAlpha, Bool.and_eq_true, decide_eq_true_eq] at h
      simp only [isDigitChar, Bool.and_eq_true, decide_eq_true_eq] at hd
      omega

theorem letter_not_digit (c : Char) (h : isAsciiLetter c = true) :
    isDigitChar c = false := by
  simp only [isAsciiLetter, Bool.or_eq_true] at h
  rcases h with h | h
  · exact upper_not_digit c h
  · exact lower_not_digit c h

theorem ws_not_digit (c : Char) (h : isWsChar c = true) : isDigitChar c = false := by
  simp only [isWsChar, Bool.or_eq_true, decide_eq_true_eq] at h
  rcases h with ((((h | h) | h) | h) | h) | h <;> subst h <;> decide

theorem wa_mem_takeWhile (p : α → Bool) (l : List α) (c : α)
    (h : c ∈ l.takeWhile p) : p c = true := by
  induction l with
  | nil => simp [List.takeWhile] at h
  | cons a rest ih =>
      rw [List.takeWhile_cons] at h
      by_cases ha : p a = true
      · rw [if_pos ha] at h
        rcases List.mem_cons.mp h with h | h
        · exact h ▸ ha
        · exact ih h
      · rw [if_neg ha] at h
        simp at h

theorem wa_all_of_mem_imp (p : α → Bool) (l : List α)
    (h : ∀ c ∈ l, p c = true) : l.all p = true := by
  induction l with
  | nil => rfl
  | cons a rest ih =>
      simp only [List.all_cons, Bool.and_eq_true]
      exact ⟨h a (by simp), ih fun c hc => h c (by simp [hc])⟩

/-- Both absorbed-word components of `tryAbsorbWord` are digit-free. -/
theorem tryAbsorbWord_no_digit (l ws w rest : JStr)
    (h : tryAbsorbWord l = some (ws, w, rest)) :
    ws.all (fun c => !isDigitChar c) = true
      ∧ w.all (fun c => !isDigitChar c) = true := by
  unfold tryAbsorbWord at h
  dsimp only at h
  split at h
  · exact absurd h (by simp)
  · split at h
    · rename_i u rest2 heq
      split at h
      · split at h
        · exact absurd h (by simp)
        · rw [Option.some.injEq, Prod.mk.injEq, Prod.mk.injEq] at h
          obtain ⟨hws, hw, hrest⟩ := h
          constructor
          · rw [← hws]
            exact wa_all_of_mem_imp _ _ fun c hc => by
              rw [ws_not_digit c (wa_mem_takeWhile _ _ _ hc)]
              rfl
          · rw [← hw]
            rename_i hupper _
            simp only [List.all_cons, Bool.and_eq_true]
            constructor
            · rw [upper_not_digit _ hupper]
              rfl
            · exact wa_all_of_mem_imp _ _ fun c hc => by
                rw [lower_not_digit c (wa_mem_takeWhile _ _ _ hc)]
                rfl
      · exact absurd h (by simp)
    · exact absurd h (by simp)

/-- Every name produced at an `@` position is at least 2 long and digit-free. -/
theorem tryNameAt_output (prev : Option Char) (l n : JStr)
    (h : tryNameAt prev l = some n) :
    2 ≤ n.length ∧ n.all (fun c => !isDigitChar c) = true := by
  unfold tryNameAt at h
  dsimp only at h
  split at h
  · exact absurd h (by simp)
  · split at h
    · exact absurd h (by simp)
    · rename_i hcond
      simp only [Bool.or_eq_true, decide_eq_true_eq, not_or, Bool.not_eq_true,
        not_lt] at hcond
      obtain ⟨hnodig, hlen2⟩ := hcond
      have hfw : (l.takeWhile fun c => !isNameDelim c).all
          (fun c => !isDigitChar c) = true := wa_any_eq_false_all_not _ _ hnodig
      split at h
      · rename_i ws1 w1 rest1 habs1
        obtain ⟨-, hw1⟩ := tryAbsorbWord_no_digit _ _ _ _ habs1
        split at h
        · rename_i ws2 w2 rest2 habs2
          obtain ⟨hws2, hw2⟩ := tryAbsorbWord_no_digit _ _ _ _ habs2
          rw [Option.some.injEq] at h
          subst h
          constructor
          · simp only [List.length_append]
            omega
          · simp only [List.all_append, List.all_cons, Bool.and_eq_true]
            exact ⟨hfw, by decide, ⟨hw1, hws2⟩, hw2⟩
        · rw [Option.some.injEq] at h
          subst h
          constructor
          · simp only [List.length_append]
            omega
          · simp only [List.all_append, List.all_cons, Bool.and_eq_true]
            exact ⟨hfw, by decide, hw1⟩
      · rw [Option.some.injEq] at h
        subst h
        exact ⟨hlen2, hfw⟩

/-- Every underscore-compound name is at least 2 long and digit-free. -/
theorem tryUnderscoreAt_output (l n r : JStr) (h : tryUnderscoreAt l = some (n, r)) :
    2 ≤ n.length ∧ n.all (fun c => !isDigitChar c) = true := by
  unfold tryUnderscoreAt at h
  dsimp only at h
  split at h
  · exact absurd h (by simp)
  · split at h
    · rename_i rest2 heq
      split at h
      · exact absurd h (by simp)
      · rename_i hne2
        rw [Option.some.injEq, Prod.mk.injEq] at h
        obtain ⟨hn, hr⟩ := h
        rename_i hne1 _
        have h1 : (l.takeWhile isAsciiLetter).all (fun c => !isDigitChar c) = true :=
          wa_all_of_mem_imp _ _ fun c hc => by
            rw [letter_not_digit c (wa_mem_takeWhile _ _ _ hc)]
            rfl
        have h2 : (rest2.takeWhile isAsciiLetter).all
            (fun c => !isDigitChar c) = true :=
          wa_all_of_mem_imp _ _ fun c hc => by
            rw [letter_not_digit c (wa_mem_takeWhile _ _ _ hc)]
            rfl
        have hlen1 : 1 ≤ (l.takeWhile isAsciiLetter).length := by
          cases hc : l.takeWhile isAsciiLetter with
          | nil => rw [hc] at hne1; simp at hne1
          | cons x xs => simp [hc]
        constructor
        · rw [← hn]
          simp only [List.length_append, List.length_cons]
          omega
        · rw [← hn]
          simp only [List.all_append, List.all_cons, Bool.and_eq_true]
          exact ⟨h1, by decide, h2⟩
    · exact absurd h (by simp)

theorem nameScan_output (l : JStr) :
    ∀ (p : Option Char) (n : JStr), n ∈ nameScan p l →
      2 ≤ n.length ∧ n.all (fun c => !isDigitChar c) = true := by
  induction l with
  | nil => intro p n hn; simp [nameScan] at hn
  | cons a rest ih =>
      intro p n hn
      rw [nameScan_cons] at hn
      by_cases ha : a = '@'
      · rw [if_pos ha] at hn
        cases htry : tryNameAt p rest with
        | none =>
            rw [htry] at hn
            exact ih (some a) n hn
        | some n2 =>
            rw [htry] at hn
            rcases List.mem_cons.mp hn with hn | hn
            · exact hn ▸ tryNameAt_output p rest n2 htry
            · exact ih (some a) n hn
      · rw [if_neg ha] at hn
        exact ih (some a) n hn

theorem underscoreScan_output (k : Nat) :
    ∀ (l : JStr), l.length ≤ k → ∀ (n : JStr), n ∈ underscoreScan l →
      2 ≤ n.length ∧ n.all (fun c => !isDigitChar c) = true := by
  induction k with
  | zero =>
      intro l hl n hn
      cases l with
      | nil => simp [underscoreScan] at hn
      | cons a rest => simp at hl
  | succ k ih =>
      intro l hl n hn
      cases l with
      | nil => simp [underscoreScan] at hn
      | cons a rest =>
          simp only [List.length_cons] at hl
          by_cases ha : a = '@'
          · subst ha
            rw [underscoreScan_cons_at] at hn
            cases htry : tryUnderscoreAt rest with
            | none =>
                rw [htry] at hn
                exact ih rest (by omega) n hn
            | some nr =>
                obtain ⟨n2, r⟩ := nr
                rw [htry] at hn
                rcases List.mem_cons.mp hn with hn | hn
                · exact hn ▸ tryUnderscoreAt_output rest n2 r htry
                · have hr := tryUnderscoreAt_length_le rest n2 r htry
                  exact ih r (by omega) n hn
          · rw [underscoreScan] at hn
            rw [if_neg ha] at hn
            exact ih rest (by omega) n hn

theorem mem_foldl_dedup (us : List JStr) :
    ∀ (acc : List JStr) (n : JStr),
      n ∈ us.foldl (fun a x => if x ∈ a then a else a ++ [x]) acc →
      n ∈ acc ∨ n ∈ us := by
  induction us with
  | nil => intro acc n h; exact Or.inl h
  | cons u rest ih =>
      intro acc n h
      rw [List.foldl_cons] at h
      rcases ih _ n h with h | h
      · split at h
        · exact Or.inl h
        · rcases List.mem_append.mp h with h | h
          · exact Or.inl h
          · simp only [List.mem_singleton] at h
            exact Or.inr (h ▸ List.mem_cons_self u rest)
      · exact Or.inr (List.mem_cons_of_mem u h)

theorem mem_foldl_dedup_base (us : List JStr) :
    ∀ (acc : List JStr) (n : JStr), n ∈ acc →
      n ∈ us.foldl (fun a x => if x ∈ a then a else a ++ [x]) acc := by
  induction us with
  | nil => intro acc n h; exact h
  | cons u rest ih =>
      intro acc n h
      rw [List.foldl_cons]
      apply ih
      split
      · exact h
      · exact List.mem_append.mpr (Or.inl h)

/-- The `@John Smith ...` position produces exactly the name `John Smith`,
independently of what follows `review`. -/
theorem tryNameAt_john (prev : Option Char) (r : JStr)
    (hprev : (match prev with | some p => isAlnumChar p | none => false) = false) :
    tryNameAt prev ("John Smith please review".toList ++ r)
      = some "John Smith".toList := by
  simp [tryNameAt, tryAbsorbWord, hprev, List.takeWhile, List.dropWhile,
    isNameDelim, isWsChar, isDigitChar, isUpperAlpha, isLowerAlpha, List.any]

/-- Claim C4 (amended): every `@` not immediately preceded by an alphanumeric
character and followed by `John Smith please review` contributes the name
`John Smith` (two-word absorption); every extracted name is at least 2
characters long and contains no digit; and on the exact text
`@John Smith please review` the extraction returns `[John Smith]` while the
stripped text is `please review`. -/
theorem c4_name_mention_extraction :
    (∀ (pre r : JStr),
        (∀ c, lastOr none pre = some c → isAlnumChar c = false) →
        "John Smith".toList ∈ extractMentionedNames
          (pre ++ '@' :: ("John Smith please review".toList ++ r)))
    ∧ (∀ (text n : JStr), n ∈ extractMentionedNames text →
        2 ≤ n.length ∧ n.all (fun c => !isDigitChar c) = true)
    ∧ extractMentionedNames "@John Smith please review".toList
        = ["John Smith".toList]
    ∧ extractActualMessage "@John Smith please review".toList
        (extractMentionedNames "@John Smith please review".toList)
        (extractMentionedNumbers "@John Smith please review".toList)
      = "please review".toList := by
  refine ⟨?_, ?_, ?_, ?_⟩
  · intro pre r hp
    have hprev : (match lastOr none pre with
        | some p => isAlnumChar p | none => false) = false := by
      cases hl : lastOr none pre with
      | none => rfl
      | some c => exact hp c hl
    have htry := tryNameAt_john (lastOr none pre) r hprev
    have hmem := nameScan_mem pre none _ _ htry
    have hne : (pre ++ '@' :: ("John Smith please review".toList ++ r)).isEmpty
        = false := by
      cases pre <;> rfl
    simp only [extractMentionedNames, hne, Bool.false_eq_true, if_false]
    exact mem_foldl_dedup_base _ _ _ hmem
  · intro text n hn
    unfold extractMentionedNames at hn
    split at hn
    · simp at hn
    · rcases mem_foldl_dedup _ _ _ hn with h | h
      · exact nameScan_output text none n h
      · exact underscoreScan_output text.length text le_rfl n h
  · simp [extractMentionedNames, nameScan, tryNameAt, tryAbsorbWord,
      underscoreScan, tryUnderscoreAt, List.takeWhile, List.dropWhile,
      isNameDelim, isWsChar, isDigitChar, isUpperAlpha, isLowerAlpha,
      isAsciiLetter, isAlnumChar, List.any, List.foldl]
  · simp [extractActualMessage, extractMentionedNames, extractMentionedNumbers,
      numScan, tryNumAt, dropOpt, fallbackNumbers, splitWs, isValidNumberToken,
      nameScan, tryNameAt, tryAbsorbWord, underscoreScan, tryUnderscoreAt,
      removeTokWB, removeResidual, collapseWs, trimWs, boundaryAfter,
      toLowerList, toLowerChar, isWsChar, isDigitChar, isNameDelim, isWordChar,
      isAlnumChar, isAsciiLetter, isUpperAlpha, isLowerAlpha, invLRE, invPDF,
      List.takeWhile, List.dropWhile, List.filter, List.filterMap, List.foldl,
      List.any, List.all]

/-- Witness for C4: the general parts applied at concrete inputs. -/
theorem c4_name_mention_extraction_witness :
    "John Smith".toList ∈ extractMentionedNames
      ("ok ".toList ++ '@' :: ("John Smith please review".toList ++ "!".toList))
    ∧ (2 ≤ "John Smith".toList.length
        ∧ "John Smith".toList.all (fun c => !isDigitChar c) = true) := by
  constructor
  · exact c4_name_mention_extraction.1 "ok ".toList "!".toList
      (by intro c hc; injection hc with h; subst h; decide)
  · exact c4_name_mention_extraction.2.1 "@John Smith please review".toList
      "John Smith".toList
      (by rw [c4_name_mention_extraction.2.2.1]; exact List.mem_singleton.mpr rfl)

/-- Counterexample to C4 as stated: the text `hi @John Smith please review`
contains `@John Smith please review` and the extracted names do include
`John Smith`, but the stripped text is `hi please review`, not
`please review`. -/
theorem c4_strip_keeps_surrounding_text :
    extractMentionedNames "hi @John Smith please review".toList
      = ["John Smith".toList]
    ∧ extractActualMessage "hi @John Smith please review".toList
        (extractMentionedNames "hi @John Smith please review".toList)
        (extractMentionedNumbers "hi @John Smith please review".toList)
      = "hi please review".toList
    ∧ "hi please review".toList ≠ "please review".toList := by
  refine ⟨?_, ?_, by decide⟩ <;>
    simp [extractActualMessage, extractMentionedNames, extractMentionedNumbers,
      numScan, tryNumAt, dropOpt, fallbackNumbers, splitWs, isValidNumberToken,
      nameScan, tryNameAt, tryAbsorbWord, underscoreScan, tryUnderscoreAt,
      removeTokWB, removeResidual, collapseWs, trimWs, boundaryAfter,
      toLowerList, toLowerChar, isWsChar, isDigitChar, isNameDelim, isWordChar,
      isAlnumChar, isAsciiLetter, isUpperAlpha, isLowerAlpha, invLRE, invPDF,
      List.takeWhile, List.dropWhile, List.filter, List.filterMap, List.foldl,
      List.any, List.all]

end WA
